import Mathlib

/-!
Shallow embedding of `src/python/extract_workflows.py` (the Trackidity
workflow-extraction core) and proofs about it.

The Python code walks a duck-typed Slither program model.  We embed that
model as a flat table of `Entity` records indexed by `Nat` identifiers
(Python object references become indices; `str(id(obj))` fallback keys
become `toString` of the index).  Every attribute that the source reads
with `getattr(x, attr, default)` becomes an `Option` field read with
`Option.getD default`, so the "attribute missing" behaviour of the source
is represented exactly.  Filesystem calls made through `os.path` are
abstracted as an `OsPath` oracle; everything else is translated directly
from the source.
-/

namespace Trackidity

/-- Mirrors the frozen `Location` dataclass (file, 0-based line, character). -/
structure Location where
  file : String
  line : Nat
  character : Nat := 0
deriving DecidableEq, Repr, Inhabited

/-- Mirrors a Slither `source_mapping` object: the fields the source reads. -/
structure SrcMap where
  is_dependency : Bool := false
  filename_relative : Option String := none
  filename_absolute : Option String := none
  lines : List Nat := []
  start : Option Nat := none
deriving DecidableEq, Repr, Inhabited

/-! ### String primitives

Python string operations used by the source, re-implemented by structural
recursion on the character list so that closed instances evaluate inside
the kernel (the corresponding `String` library functions are defined by
well-founded recursion on byte positions and do not reduce definitionally).
Python compares strings lexicographically by code point, which is exactly
the order implemented here. -/

/-- Code-point lexicographic strict order on character lists. -/
def charListLtB : List Char → List Char → Bool
  | [], [] => false
  | [], _ :: _ => true
  | _ :: _, [] => false
  | a :: as, b :: bs =>
    if a.toNat < b.toNat then true
    else if b.toNat < a.toNat then false
    else charListLtB as bs

/-- Python `a < b` on strings. -/
def strLtB (a b : String) : Bool :=
  charListLtB a.data b.data

/-- Python `a <= b` on strings (for a total strict order, `¬ b < a`). -/
def strLeB (a b : String) : Bool :=
  !(strLtB b a)

/-- Is `p` a prefix of `l`? -/
def isPrefixChars : List Char → List Char → Bool
  | [], _ => true
  | _ :: _, [] => false
  | a :: as, b :: bs => a = b && isPrefixChars as bs

/-- Python `s.startswith(p)`. -/
def strStartsWith (s p : String) : Bool :=
  isPrefixChars p.data s.data

/-- Characters before the first `(`. -/
def bareNameChars : List Char → List Char
  | [] => []
  | c :: cs => if c = '(' then [] else c :: bareNameChars cs

/-- Python `s.split("(")[0]`. -/
def bareName (s : String) : String :=
  ⟨bareNameChars s.data⟩

/-- Split on `/` and `\` separators, keeping empty segments — the combined
effect of Python `s.replace("\\", "/").split("/")`. -/
def splitPathChars : List Char → List (List Char)
  | [] => [[]]
  | c :: cs =>
    if c = '/' ∨ c = '\\' then [] :: splitPathChars cs
    else
      match splitPathChars cs with
      | seg :: rest => (c :: seg) :: rest
      | [] => [[c]]

/-- The path segments of a filename. -/
def pathParts (s : String) : List String :=
  (splitPathChars s.data).map (fun l => ⟨l⟩)

/-- Oracle for the `os.path` library calls made by `_location_from_source_mapping`:
`isdir` and `dirname` are used verbatim; `rebaseUnder root abs` stands for the
`commonpath([root, abs]) == root` test followed by `relpath(abs, root)`
(returning `none` when the containment test fails or the library call raises). -/
structure OsPath where
  isdir : String → Bool
  dirname : String → String
  isabs : String → Bool
  rebaseUnder : String → String → Option String

/-- Translation of `_location_from_source_mapping`.  The final `try/except`
returning `None` corresponds to the `none` branches; with total fields the
only failure sources are the `os.path` calls, folded into the oracle. -/
def locationFromSourceMapping (os : OsPath) (workspace_root : String)
    (src? : Option SrcMap) : Option Location :=
  match src? with
  | none => none
  | some src =>
    let fn0 : Option String :=
      match src.filename_absolute with
      | some fa =>
        if fa ≠ "" then
          let root := if workspace_root ≠ "" && !(os.isdir workspace_root) then
              os.dirname workspace_root else workspace_root
          if root ≠ "" && os.isabs fa then
            match os.rebaseUnder root fa with
            | some rel => if strStartsWith rel ".." then none else some rel
            | none => none
          else none
        else none
      | none => none
    let fn1 : Option String :=
      match fn0 with
      | some f => some f
      | none =>
        match src.filename_relative with
        | some fr => if fr ≠ "" then some fr else none
        | none => none
    let fn2 : Option String :=
      match fn1 with
      | some f => some f
      | none =>
        match src.filename_absolute with
        | some fa => if fa ≠ "" then some fa else none
        | none => none
    match fn2 with
    | none => none
    | some f =>
      match src.lines with
      | [] => some { file := f, line := 0 }
      | l :: _ => some { file := f, line := l - 1 }

/-- The `_EXCLUDED_DIRS` denylist. -/
def EXCLUDED_DIRS : List String :=
  ["lib", "dependencies", "test", "tests", "script", "scripts",
   "node_modules", "mock", "mocks"]

/-- Translation of `_is_dependency`: explicit model flag, else a path-segment
check of the relative (else absolute) filename against `_EXCLUDED_DIRS`.
A missing source mapping returns `false` (the `except` branch). -/
def isDependency (src? : Option SrcMap) : Bool :=
  match src? with
  | none => false
  | some src =>
    if src.is_dependency then true
    else
      let fn : Option String :=
        match src.filename_relative with
        | some fr => if fr ≠ "" then some fr else src.filename_absolute
        | none => src.filename_absolute
      match fn with
      | some f =>
        if f ≠ "" then
          (pathParts f).any (fun p => EXCLUDED_DIRS.contains p)
        else false
      | none => false

/-- One record of the duck-typed Slither model: a contract, function,
modifier, variable, CFG node, IR instruction or call expression.  Fields the
source reads with `getattr(x, a, d)` are `Option`s (`none` = attribute
absent); list attributes read with `or []` are plain lists.
`all_state_variables_written` is the function's transitive-write method:
`none` models the call raising (the source then falls back to
`state_variables_written`). -/
structure Entity where
  class_name : String := ""
  canonical_name : Option String := none
  name : Option String := none
  full_name : Option String := none
  is_implemented : Option Bool := none
  is_constructor : Option Bool := none
  is_fallback : Option Bool := none
  is_receive : Option Bool := none
  is_constructor_variables : Option Bool := none
  visibility : Option String := none
  view : Option Bool := none
  pure : Option Bool := none
  contract_declarer : Option Nat := none
  overridden_by : List Nat := []
  modifiers : List (Option Nat) := []
  explicit_base_constructor_calls : List (Option Nat) := []
  nodes : List Nat := []
  node_id : Option Nat := none
  irs : List Nat := []
  function : Option Nat := none
  is_modifier_call : Option Bool := none
  constructors_declared : Option Nat := none
  internal_calls : List Nat := []
  calls_as_expressions : List Nat := []
  called : Option Nat := none
  is_interface : Option Bool := none
  is_abstract : Option Bool := none
  is_fully_implemented : Option Bool := none
  derived_contracts : List Nat := []
  functions : List Nat := []
  functions_declared : List Nat := []
  inheritance : List Nat := []
  is_function_contract : Bool := false
  all_state_variables_written : Option (List Nat) := none
  state_variables_written : List Nat := []
  contract : Option Nat := none
  is_constant : Option Bool := none
  is_immutable : Option Bool := none
  source_mapping : Option SrcMap := none
deriving DecidableEq, Inhabited

/-- The whole frozen program model: a table of entities. -/
structure Model where
  ents : List Entity
deriving Inhabited

/-- Dereference an entity id (a dangling id yields the inert default entity). -/
def Model.ent (m : Model) (i : Nat) : Entity :=
  m.ents.getD i default

/-- The identity key used throughout the source:
`getattr(x, "canonical_name", None) or str(id(x))`. -/
def entKey (m : Model) (i : Nat) : String :=
  match (m.ent i).canonical_name with
  | some c => if c ≠ "" then c else toString i
  | none => toString i

/-- Translation of `_as_label_for_function`. -/
def asLabelForFunction (e : Entity) : String :=
  match e.name with
  | some n =>
    if n ≠ "" then n
    else
      match e.full_name with
      | some fu => if fu ≠ "" then bareName fu else "<unknown>"
      | none => "<unknown>"
  | none =>
    match e.full_name with
    | some fu => if fu ≠ "" then bareName fu else "<unknown>"
    | none => "<unknown>"

/-- Translation of `_contract_name`. -/
def contractName (m : Model) (e : Entity) : Option String :=
  match e.contract_declarer with
  | none => none
  | some cid =>
    match (m.ent cid).name with
    | some n => if n ≠ "" then some n else none
    | none => none

/-! ### Implementation resolver (`_collect_overriding_functions`, `_resolve_to_implementation`) -/

/-- Queue loop of `_collect_overriding_functions`: pop from the front,
drop entries without a (fresh) nonempty canonical name, append discoveries,
push their `overridden_by` successors.  `fuel` is a termination device only;
`overridingBfsFuel` below always exceeds the number of iterations the loop
can make (each push batch is enabled by a fresh canonical name). -/
def overridingBfs (m : Model) : Nat → List String → List Nat → List Nat
  | 0, _, _ => []
  | _ + 1, _, [] => []
  | fuel + 1, seen, f :: queue =>
    match (m.ent f).canonical_name with
    | none => overridingBfs m fuel seen queue
    | some c =>
      if c = "" then overridingBfs m fuel seen queue
      else if c ∈ seen then overridingBfs m fuel seen queue
      else f :: overridingBfs m fuel (c :: seen) (queue ++ (m.ent f).overridden_by)

/-- Fuel bound for `overridingBfs`: iterations ≤ initial queue + one push
batch per distinct canonical name, each batch at most the largest
`overridden_by` list in the model. -/
def overridingBfsFuel (m : Model) : Nat :=
  (m.ents.length + 1) * ((m.ents.foldl (fun a e => max a e.overridden_by.length) 0) + 1) + 1

/-- Translation of `_collect_overriding_functions`. -/
def collectOverridingFunctions (m : Model) (fid : Nat) : List Nat :=
  match (m.ent fid).canonical_name with
  | none => []
  | some base =>
    if base = "" then []
    else overridingBfs m (overridingBfsFuel m) [base] (m.ent fid).overridden_by

/-- Candidate gathering of `_resolve_to_implementation` (lines 147-171):
implemented overrides, plus — for interface declarations — matching
implemented functions of non-interface derived contracts, deduplicated. -/
def implCandidatesRaw (m : Model) (fid : Nat) : List Nat :=
  let f := m.ent fid
  let impls :=
    (collectOverridingFunctions m fid).filter (fun g => (m.ent g).is_implemented.getD false)
  let declared_in_iface :=
    match f.contract_declarer with
    | some c => (m.ent c).is_interface.getD false
    | none => false
  if declared_in_iface then
    match f.contract_declarer with
    | some c =>
      (m.ent c).derived_contracts.foldl (fun impls dc =>
        if (m.ent dc).is_interface.getD false then impls
        else
          (m.ent dc).functions.foldl (fun impls g =>
            if !((m.ent g).is_implemented.getD false) then impls
            else if (m.ent g).full_name = f.full_name ||
                ((m.ent g).name = f.name && (m.ent g).full_name = none) then
              if g ∈ impls then impls else impls ++ [g]
            else impls) impls) impls
    | none => impls
  else impls

/-- Dependency filtering of candidates (lines 176-179): with
`exclude_dependencies`, drop dependency candidates unless that would drop
everything. -/
def implCandidates (m : Model) (fid : Nat) (exclude_dependencies : Bool) : List Nat :=
  let impls := implCandidatesRaw m fid
  if exclude_dependencies then
    let non_dep := impls.filter (fun g => !(isDependency (m.ent g).source_mapping))
    if non_dep ≠ [] then non_dep else impls
  else impls

/-- The `score` closure of `_resolve_to_implementation`: `(points, canonical
name or "")`. -/
def implScoreKey (m : Model) (g : Nat) : Nat × String :=
  let s :=
    match (m.ent g).contract_declarer with
    | some c =>
      (if !((m.ent c).is_interface.getD false) then 10 else 0) +
      (if !((m.ent c).is_abstract.getD false) then 5 else 0) +
      (if (m.ent c).is_fully_implemented.getD false then 2 else 0)
    | none => 0
  let s := s + (if !(isDependency (m.ent g).source_mapping) then 3 else 0)
  (s, ((m.ent g).canonical_name.getD ""))

/-- Python tuple `≤` on `(score, canonical_name)` keys. -/
def scoreKeyLe (a b : Nat × String) : Bool :=
  decide (a.1 < b.1) || (decide (a.1 = b.1) && strLeB a.2 b.2)

/-- The comparator of `impls.sort(key=score, reverse=True)`: a stable sort
that puts larger `(score, name)` keys first. -/
def implSortLe (m : Model) (a b : Nat) : Bool :=
  scoreKeyLe (implScoreKey m b) (implScoreKey m a)

/-- The fast path of `_resolve_to_implementation` (lines 135-144): no usable
canonical name, or already implemented outside interface/abstract contracts. -/
def resolveFastPath (m : Model) (fid : Nat) : Bool :=
  match (m.ent fid).canonical_name with
  | none => true
  | some canonical =>
    if canonical = "" then true
    else
      let declared_in_iface :=
        match (m.ent fid).contract_declarer with
        | some c => (m.ent c).is_interface.getD false
        | none => false
      let declared_in_abstract :=
        match (m.ent fid).contract_declarer with
        | some c => (m.ent c).is_abstract.getD false
        | none => false
      (m.ent fid).is_implemented.getD true && !declared_in_iface && !declared_in_abstract

/-- Translation of `_resolve_to_implementation` (identifiers stand for the
Python objects; the function returns the chosen entity id). -/
def resolveToImplementation (m : Model) (fid : Nat) (exclude_dependencies : Bool) : Nat :=
  if resolveFastPath m fid then fid
  else if implCandidatesRaw m fid = [] then fid
  else
    (List.insertionSort (fun a b => implSortLe m a b = true)
      (implCandidates m fid exclude_dependencies)).headD fid

/-! ### Call collector (`_SOLIDITY_BUILTINS`, `_collect_called_targets`) -/

/-- The `_SOLIDITY_BUILTINS` set. -/
def SOLIDITY_BUILTINS : List String :=
  ["require", "assert", "revert", "return",
   "abi.encode", "abi.encodePacked", "abi.encodeWithSelector",
   "abi.encodeWithSignature", "abi.encodeCall", "abi.decode",
   "keccak256", "sha256", "ripemd160",
   "bytes.concat", "string.concat",
   "ecrecover",
   "addmod", "mulmod",
   "blockhash",
   "tload", "tstore",
   "mload", "mstore", "calldataload", "sload", "sstore",
   "signextend",
   "gasleft", "type"]

/-- One `(kind_label, target, callsite)` tuple produced by
`_collect_called_targets`.  `entity` is `Option` because the Python tuple
may hold `None` in principle — the collector itself only ever stores
`some` (see `collect_targets_entity_present` below). -/
structure CallTarget where
  kind : String
  entity : Option Nat
  callsite : Option Nat
deriving DecidableEq, Repr, Inhabited

/-- Modifier section of `_collect_called_targets` (lines 246-257): one entry
per non-`None` modifier; modifiers carrying `constructors_declared` are
emitted as `BaseConstructor`, deduplicated through the `seen` key set. -/
def collectModifierTargets (m : Model) (seen : List String) :
    List (Option Nat) → List CallTarget × List String
  | [] => ([], seen)
  | none :: rest => collectModifierTargets m seen rest
  | some mid :: rest =>
    match (m.ent mid).constructors_declared with
    | some bc =>
      let cid := entKey m bc
      if cid ∈ seen then collectModifierTargets m seen rest
      else
        let r := collectModifierTargets m (cid :: seen) rest
        (⟨"BaseConstructor", some bc, none⟩ :: r.1, r.2)
    | none =>
      let r := collectModifierTargets m seen rest
      (⟨"Modifier", some mid, none⟩ :: r.1, r.2)

/-- Explicit base-constructor section (lines 260-266). -/
def collectExplicitCtorTargets (m : Model) (seen : List String) :
    List (Option Nat) → List CallTarget × List String
  | [] => ([], seen)
  | none :: rest => collectExplicitCtorTargets m seen rest
  | some bc :: rest =>
    let cid := entKey m bc
    if cid ∈ seen then collectExplicitCtorTargets m seen rest
    else
      let r := collectExplicitCtorTargets m (cid :: seen) rest
      (⟨"BaseConstructor", some bc, none⟩ :: r.1, r.2)

/-- The `_node_key` sort key: `(start, node_id)`, else `(lines[0], node_id)`,
else `(10^18, node_id)`. -/
def nodeKey (m : Model) (nid : Nat) : Nat × Nat :=
  let n := m.ent nid
  let idv := n.node_id.getD 0
  match n.source_mapping with
  | some src =>
    match src.start with
    | some s => (s, idv)
    | none =>
      match src.lines with
      | l :: _ => (l, idv)
      | [] => (10 ^ 18, idv)
  | none => (10 ^ 18, idv)

/-- Python tuple `≤` on `(Nat, Nat)` node keys. -/
def nodeKeyLe (a b : Nat × Nat) : Prop :=
  a.1 < b.1 ∨ (a.1 = b.1 ∧ a.2 ≤ b.2)

instance (a b : Nat × Nat) : Decidable (nodeKeyLe a b) := by
  unfold nodeKeyLe; infer_instance

/-- `nodes.sort(key=_node_key)` — a stable ascending sort. -/
def sortNodes (m : Model) (ns : List Nat) : List Nat :=
  List.insertionSort (fun a b => nodeKeyLe (nodeKey m a) (nodeKey m b)) ns

/-- The classification of one body IR (lines 318-325). -/
def irKindLabel (m : Model) (irId tgt : Nat) : String :=
  if (m.ent irId).class_name = "LibraryCall" then "Library"
  else if (m.ent irId).class_name = "HighLevelCall" then "External"
  else if (m.ent irId).class_name = "SolidityCall" ||
      strStartsWith (m.ent tgt).class_name "Solidity" then "Solidity"
  else "Internal"

/-- Body section, inner loop over one node's IRs (lines 288-327): skip
targetless and modifier-call IRs, skip already-seen constructor keys (and
record fresh constructor keys), skip custom-error reverts and builtin
names, classify and emit with the node as callsite. -/
def collectIrTargets (m : Model) (nid : Nat) (seen : List String) :
    List Nat → List CallTarget × List String
  | [] => ([], seen)
  | irId :: rest =>
    match (m.ent irId).function with
    | none => collectIrTargets m nid seen rest
    | some tgt =>
      if (m.ent irId).is_modifier_call.getD false then collectIrTargets m nid seen rest
      else
        let tkey := entKey m tgt
        if tkey ∈ seen then collectIrTargets m nid seen rest
        else
          let seen' := if (m.ent tgt).is_constructor.getD false then tkey :: seen else seen
          match (m.ent tgt).name with
          | some nm =>
            if strStartsWith nm "revert " then collectIrTargets m nid seen' rest
            else if SOLIDITY_BUILTINS.contains (bareName nm) then
              collectIrTargets m nid seen' rest
            else
              let r := collectIrTargets m nid seen' rest
              (⟨irKindLabel m irId tgt, some tgt, some nid⟩ :: r.1, r.2)
          | none =>
            let r := collectIrTargets m nid seen' rest
            (⟨irKindLabel m irId tgt, some tgt, some nid⟩ :: r.1, r.2)

/-- Body section, outer loop over the (sorted) CFG nodes. -/
def collectBodyTargets (m : Model) (seen : List String) :
    List Nat → List CallTarget × List String
  | [] => ([], seen)
  | nid :: rest =>
    let r1 := collectIrTargets m nid seen (m.ent nid).irs
    let r2 := collectBodyTargets m r1.2 rest
    (r1.1 ++ r2.1, r2.2)

/-- Translation of `_collect_called_targets`: modifier entries, then explicit
base-constructor calls, then body calls in `_node_key` order, with one
`seen_base_ctors` set threaded through all three phases. -/
def collectCalledTargets (m : Model) (fid : Nat) : List CallTarget :=
  let f := m.ent fid
  let r1 := collectModifierTargets m [] f.modifiers
  let r2 := collectExplicitCtorTargets m r1.2 f.explicit_base_constructor_calls
  let r3 := collectBodyTargets m r2.2 (sortNodes m f.nodes)
  r1.1 ++ r2.1 ++ r3.1

/-! ### Call tree builder (`_serialize_call_tree`) -/

/-- One serialized call-tree node, mirroring the dict built at lines 393-401. -/
inductive CallNode where
  | mk (label : String) (contract : Option String) (kindLabel : String)
       (tooltip : String) (location : Option Location) (cycle : Bool)
       (calls : List CallNode)

def CallNode.label : CallNode → String
  | .mk l _ _ _ _ _ _ => l

def CallNode.contract : CallNode → Option String
  | .mk _ c _ _ _ _ _ => c

def CallNode.kindLabel : CallNode → String
  | .mk _ _ k _ _ _ _ => k

def CallNode.tooltip : CallNode → String
  | .mk _ _ _ t _ _ _ => t

def CallNode.location : CallNode → Option Location
  | .mk _ _ _ _ loc _ _ => loc

def CallNode.cycle : CallNode → Bool
  | .mk _ _ _ _ _ c _ => c

def CallNode.calls : CallNode → List CallNode
  | .mk _ _ _ _ _ _ cs => cs

/-- `isinstance(canonical, str) and canonical` for the *resolved* target
`tid` (lines 368-369). -/
def targetCanonOk (m : Model) (tid : Nat) : Bool :=
  match (m.ent tid).canonical_name with
  | some c => c ≠ ""
  | none => false

/-- The node identity of a resolved target (lines 370 and 377-383):
the canonical name when present, else `kind:name`, else `kind:<unknown>`. -/
def targetNodeId (m : Model) (kind : String) (tid : Nat) : String :=
  if targetCanonOk m tid then (m.ent tid).canonical_name.getD ""
  else
    match (m.ent tid).name with
    | some n => if n ≠ "" then kind ++ ":" ++ n else kind ++ ":<unknown>"
    | none => kind ++ ":<unknown>"

/-- The node label of a resolved target (lines 371 and 377-383). -/
def targetLabel (m : Model) (tid : Nat) : String :=
  if targetCanonOk m tid then asLabelForFunction (m.ent tid)
  else
    match (m.ent tid).name with
    | some n => if n ≠ "" then n else "<unknown>"
    | none => "<unknown>"

/-- The dependency-expansion side of the recursion guard (line 407). -/
def targetShouldExpand (m : Model) (exclude_dependencies expand_dependencies : Bool)
    (tid : Nat) : Bool :=
  expand_dependencies ||
    !(exclude_dependencies && isDependency (m.ent tid).source_mapping)

/-- Per-target step of `_serialize_call_tree` (lines 354-421): resolve the
target, compute its node identity, build the node, and recurse (through the
`recurse` continuation, instantiated with `serializeAux` below) when the
identity is fresh, canonical and not an excluded dependency. -/
def serializeTarget (os : OsPath) (m : Model) (workspace_root : String)
    (exclude_dependencies expand_dependencies : Bool)
    (recurse : Nat → List String → List CallNode)
    (anc : List String) (t : CallTarget) : Option CallNode :=
  match t.entity with
  | none => none
  | some tid0 =>
    let tid := resolveToImplementation m tid0 exclude_dependencies
    let callsite_location : Option Location :=
      match t.callsite with
      | some cs => locationFromSourceMapping os workspace_root (m.ent cs).source_mapping
      | none => none
    let node_id := targetNodeId m t.kind tid
    let contract : Option String :=
      if targetCanonOk m tid then contractName m (m.ent tid) else none
    let location0 : Option Location :=
      if targetCanonOk m tid then
        locationFromSourceMapping os workspace_root (m.ent tid).source_mapping
      else none
    let location : Option Location :=
      match location0 with
      | some l => some l
      | none => callsite_location
    let cycle : Bool := node_id ∈ anc
    let tooltip : String :=
      if targetCanonOk m tid then (m.ent tid).canonical_name.getD ""
      else targetLabel m tid
    let calls : List CallNode :=
      if !cycle && targetCanonOk m tid &&
          targetShouldExpand m exclude_dependencies expand_dependencies tid then
        recurse tid (node_id :: anc)
      else []
    some (.mk (targetLabel m tid) contract t.kind tooltip location cycle calls)

/-- Recursion core of `_serialize_call_tree`, parameterized by the remaining
depth budget `fuel = max_depth - depth` (the source's `depth >= max_depth`
guard is exactly `fuel = 0`, and each recursive call passes `depth + 1`,
i.e. `fuel - 1`). -/
def serializeAux (os : OsPath) (m : Model) (workspace_root : String)
    (exclude_dependencies expand_dependencies : Bool) :
    Nat → Nat → List String → List CallNode
  | 0, _, _ => []
  | fuel + 1, fid, anc =>
    (collectCalledTargets m fid).filterMap
      (serializeTarget os m workspace_root exclude_dependencies expand_dependencies
        (fun tid anc' =>
          serializeAux os m workspace_root exclude_dependencies expand_dependencies
            fuel tid anc')
        anc)

/-- Translation of `_serialize_call_tree` with the source's
`(max_depth, depth)` signature. -/
def serializeCallTree (os : OsPath) (m : Model) (workspace_root : String)
    (max_depth : Nat) (exclude_dependencies expand_dependencies : Bool)
    (depth : Nat) (fid : Nat) (anc : List String) : List CallNode :=
  serializeAux os m workspace_root exclude_dependencies expand_dependencies
    (max_depth - depth) fid anc

/-! ### Entry point classifiers -/

/-- Translation of `_is_entry_point`. -/
def isEntryPoint (e : Entity) : Bool :=
  if !(e.is_implemented.getD false) then false
  else if e.is_constructor_variables.getD false then false
  else if e.is_constructor.getD false then true
  else if e.is_fallback.getD false then true
  else if e.is_receive.getD false then true
  else e.visibility = some "public" || e.visibility = some "external"

/-- Translation of `_is_state_changing_entrypoint` on a model entity
(attributes present-or-defaulted; the raising-attribute behaviour is modelled
separately by `FuncView` / `isStateChangingEntrypointV` below). -/
def isStateChangingEntrypoint (e : Entity) : Bool :=
  if !(e.is_implemented.getD false) then false
  else if e.is_constructor_variables.getD false then false
  else if e.view.getD false then false
  else if e.pure.getD false then false
  else if e.is_constructor.getD false then true
  else if e.is_fallback.getD false then true
  else if e.is_receive.getD false then true
  else e.visibility = some "public" || e.visibility = some "external"

/-- The attributes `_is_state_changing_entrypoint` reads, each of which may
also *raise* (`Except.error ()`) — Slither model attributes are properties
that can fail, and the function's `try/except` catches that.  A missing
attribute behaves as its `getattr` default and is encoded as `.ok default`. -/
structure FuncView where
  is_implemented : Except Unit Bool
  is_constructor_variables : Except Unit Bool
  visibility : Except Unit (Option String)
  view : Except Unit Bool
  pure : Except Unit Bool
  is_constructor : Except Unit Bool
  is_fallback : Except Unit Bool
  is_receive : Except Unit Bool

/-- Translation of `_is_state_changing_entrypoint` with failing attribute
accesses made explicit: every `.error` branch is the `except: return False`
path.  The access order matches the source: `is_implemented`,
`is_constructor_variables`, `visibility`, `view`, `pure` (short-circuited),
then `is_constructor` / `is_fallback` / `is_receive` (short-circuited),
then the visibility test. -/
def isStateChangingEntrypointV (f : FuncView) : Bool :=
  match f.is_implemented with
  | .error _ => false
  | .ok impl =>
    if !impl then false
    else
      match f.is_constructor_variables with
      | .error _ => false
      | .ok icv =>
        if icv then false
        else
          match f.visibility with
          | .error _ => false
          | .ok visibility =>
            match f.view with
            | .error _ => false
            | .ok v =>
              if v then false
              else
                match f.pure with
                | .error _ => false
                | .ok p =>
                  if p then false
                  else
                    match f.is_constructor with
                    | .error _ => false
                    | .ok c =>
                      if c then true
                      else
                        match f.is_fallback with
                        | .error _ => false
                        | .ok fb =>
                          if fb then true
                          else
                            match f.is_receive with
                            | .error _ => false
                            | .ok rc =>
                              if rc then true
                              else
                                visibility = some "public" ||
                                  visibility = some "external"

/-! ### Reachability (`_find_calling_entry_points`) and variable writers -/

/-- The per-caller body of the loop in `_find_calling_entry_points`
(lines 466-478): recurse into `g` when it lists `targetF` among its internal
calls, then once more for every call expression of `g` whose `called`
reference *is* `targetF`; the recursion `rec` receives and returns the
shared `visited` set, threaded through `st`. -/
def findFoldStep (m : Model)
    (rec : Nat → List String → Finset Nat × List String) (targetF : Nat)
    (st : Finset Nat × List String) (g : Nat) : Finset Nat × List String :=
  ((m.ent g).calls_as_expressions).foldl
    (fun st2 ce =>
      if (m.ent ce).called = some targetF then
        (st2.1 ∪ (rec g st2.2).1, (rec g st2.2).2)
      else st2)
    (if targetF ∈ (m.ent g).internal_calls then
      (st.1 ∪ (rec g st.2).1, (rec g st.2).2)
    else st)

/-- Translation of `_find_calling_entry_points`.  The Python `visited` set is
one mutable set threaded through the whole search; here it is passed in and
returned.  `fuel` is a termination device: each non-trivial recursion adds a
fresh key to `visited`, and keys are drawn from the contract's function list
plus the initial target, so `(m.ent cid).functions.length + 2` levels always
suffice (see `findCallingEntryPointsTop`). -/
def findCallingEntryPoints (m : Model) (cid : Nat) :
    Nat → Nat → List String → Finset Nat × List String
  | 0, _, visited => (∅, visited)
  | fuel + 1, targetF, visited =>
    let tkey := entKey m targetF
    if tkey ∈ visited then (∅, visited)
    else
      ((m.ent cid).functions).foldl
        (findFoldStep m (findCallingEntryPoints m cid fuel) targetF)
        ((if isEntryPoint (m.ent targetF) then {targetF} else ∅), tkey :: visited)

/-- `_find_calling_entry_points(func, contract)` as called by
`_extract_variables`: a fresh `visited` set per call. -/
def findCallingEntryPointsTop (m : Model) (cid targetF : Nat) : Finset Nat :=
  (findCallingEntryPoints m cid ((m.ent cid).functions.length + 2) targetF []).1

/-- `{getattr(v, "canonical_name", None) for v in all_written}` for one
function, with the source's fallback from the raising
`all_state_variables_written()` call to `state_variables_written`. -/
def writtenCanonicals (m : Model) (fid : Nat) : List (Option String) :=
  (match (m.ent fid).all_state_variables_written with
   | some l => l
   | none => (m.ent fid).state_variables_written).map
    (fun v => (m.ent v).canonical_name)

/-- The per-function body of the writer loop of `_extract_variables`
(lines 548-567): skip non-`FunctionContract` entries, and for a function
whose (transitive) write set names the variable, add it when it is an entry
point, else the entry points that reach it. -/
def writingStep (m : Model) (cid : Nat) (var_canonical : String)
    (acc : Finset Nat) (fid : Nat) : Finset Nat :=
  if !(m.ent fid).is_function_contract then acc
  else if some var_canonical ∈ writtenCanonicals m fid then
    if isEntryPoint (m.ent fid) then acc ∪ {fid}
    else acc ∪ findCallingEntryPointsTop m cid fid
  else acc

/-- The writer computation of `_extract_variables` (lines 546-567) for one
contract and one variable canonical name. -/
def writingEntryPoints (m : Model) (cid : Nat) (var_canonical : String) : Finset Nat :=
  ((m.ent cid).functions).foldl (writingStep m cid var_canonical) ∅

/-- One writer record (lines 581-586). -/
structure WriterRec where
  flowId : String
  label : String
  contract : String
  location : Option Location
deriving DecidableEq, Repr

/-- Building one writer record from an entry point (lines 576-586). -/
def mkWriterRec (os : OsPath) (m : Model) (workspace_root : String)
    (file_rel contract_name : String) (ep : Nat) : WriterRec :=
  let e := m.ent ep
  { flowId := file_rel ++ "::" ++ (e.canonical_name.getD "")
    label := asLabelForFunction e
    contract := (contractName m e).getD contract_name
    location := locationFromSourceMapping os workspace_root e.source_mapping }

/-- `modifiers.sort(key=lambda m: (m.get("contract", ""), m.get("label", "")))`
— the stable ascending sort at line 589. -/
def sortWriterRecs (ws : List WriterRec) : List WriterRec :=
  List.insertionSort
    (fun a b =>
      (strLtB a.contract b.contract ||
        (decide (a.contract = b.contract) && strLeB a.label b.label)) = true)
    ws

/-- The writer list a variable record carries: the Python code iterates the
`writing_entry_points` *set* — an order the language does not fix, passed
here as the list `eps` — and then sorts the records by `(contract, label)`. -/
def buildWriterList (os : OsPath) (m : Model) (workspace_root : String)
    (file_rel contract_name : String) (eps : List Nat) : List WriterRec :=
  sortWriterRecs (eps.map (mkWriterRec os m workspace_root file_rel contract_name))

/-! ### Inherited entry points and flow ids (`main`, `get_inherited_functions`) -/

/-- Translation of `get_inherited_functions` (lines 746-780):
`(function, origin parent name)` pairs from abstract or dependency parents,
state-changing only, deduplicated by full name (contract-qualified for
constructors), dropping functions the concrete contract overrides. -/
def getInheritedFunctions (m : Model) (abstract_contracts : List String)
    (exclude_dependencies : Bool) (cid : Nat) : List (Nat × String) :=
  let step := fun (st : List (Nat × String) × List String) (pid : Nat) =>
    let parent_name := (m.ent pid).name.getD ""
    let is_abstract_parent := parent_name ∈ abstract_contracts
    let is_dependency_parent :=
      exclude_dependencies && isDependency (m.ent pid).source_mapping
    if !is_abstract_parent && !is_dependency_parent then st
    else
      ((m.ent pid).functions_declared).foldl
        (fun st fid =>
          if !(m.ent fid).is_function_contract then st
          else if !(isStateChangingEntrypoint (m.ent fid)) then st
          else
            let fname0 := (m.ent fid).full_name.getD ""
            let f_name := if fname0 ≠ "" then fname0 else (m.ent fid).name.getD ""
            let is_ctor := (m.ent fid).is_constructor.getD false
            let dedup_key := if is_ctor then parent_name ++ "." ++ f_name else f_name
            if dedup_key ∈ st.2 then st
            else
              let is_overridden :=
                if is_ctor then false
                else
                  ((m.ent cid).functions_declared).any (fun own =>
                    let own0 := (m.ent own).full_name.getD ""
                    (if own0 ≠ "" then own0 else (m.ent own).name.getD "") = f_name)
              if is_overridden then st
              else (st.1 ++ [(fid, parent_name)], dedup_key :: st.2))
        st
  (((m.ent cid).inheritance).foldl step ([], [])).1

/-- The `flow_id` of an inherited entry point (line 837):
`file::Concrete.label::from::Origin`. -/
def inheritedFlowId (m : Model) (file_rel contract : String) (fid : Nat)
    (origin_contract : String) : String :=
  file_rel ++ "::" ++ contract ++ "." ++ asLabelForFunction (m.ent fid) ++
    "::from::" ++ origin_contract

/-- The `flow_id` of a directly declared entry point (line 841). -/
def directFlowId (file_rel : String) (canonical : String) : String :=
  file_rel ++ "::" ++ canonical

/-- The call tree `main` attaches to one entry point (lines 856-864): depth
budget `max(1, max_depth)` from depth 0, ancestors seeded with the entry
point's canonical name, else its label. -/
def entrypointCalls (os : OsPath) (m : Model) (workspace_root : String)
    (max_depth : Nat) (exclude_dependencies expand_dependencies : Bool)
    (fid : Nat) : List CallNode :=
  let canonical := (m.ent fid).canonical_name.getD ""
  let base_label := asLabelForFunction (m.ent fid)
  serializeCallTree os m workspace_root (max 1 max_depth)
    exclude_dependencies expand_dependencies 0 fid
    (if canonical ≠ "" then [canonical] else [base_label])

/-- A trivial `os.path` oracle for closed examples whose models never hit the
filesystem-dependent branch. -/
def osPath0 : OsPath :=
  { isdir := fun _ => false
    dirname := fun _ => ""
    isabs := fun s => strStartsWith s "/"
    rebaseUnder := fun _ _ => none }

/-! ### Concrete witness models -/

/-- An abstract-declared function (entity 0) with two implemented overrides
of equal resolution score: `A.f()` (entity 1) and `B.f()` (entity 2). -/
def mC1 : Model :=
  ⟨[{ canonical_name := some "Base.f()", name := some "f",
      is_implemented := some false, contract_declarer := some 3,
      overridden_by := [1, 2] },
    { canonical_name := some "A.f()", name := some "f",
      is_implemented := some true, contract_declarer := some 4 },
    { canonical_name := some "B.f()", name := some "f",
      is_implemented := some true, contract_declarer := some 4 },
    { name := some "Base", is_abstract := some true },
    { name := some "C", is_interface := some false, is_abstract := some false,
      is_fully_implemented := some true }]⟩

/-- A contract `C` (entity 0) with two public overloads `f(uint256)`
(entity 1) and `f(bool)` (entity 2) — distinct entry points sharing the
writer-sort key `(contract, label) = ("C", "f")`. -/
def mC5 : Model :=
  ⟨[{ name := some "C" },
    { canonical_name := some "C.f(uint256)", name := some "f",
      contract_declarer := some 0 },
    { canonical_name := some "C.f(bool)", name := some "f",
      contract_declarer := some 0 }]⟩

/-- An abstract parent `P` (entity 0) declaring two state-changing overloads
`f(uint256)` (entity 2) and `f(bool)` (entity 3), inherited by the concrete
contract `C` (entity 1). -/
def mC6 : Model :=
  ⟨[{ name := some "P", functions_declared := [2, 3] },
    { name := some "C", inheritance := [0] },
    { canonical_name := some "P.f(uint256)", full_name := some "f(uint256)",
      name := some "f", is_implemented := some true,
      visibility := some "public", is_function_contract := true },
    { canonical_name := some "P.f(bool)", full_name := some "f(bool)",
      name := some "f", is_implemented := some true,
      visibility := some "public", is_function_contract := true }]⟩

/-- A function (entity 0) carrying one attached modifier (entity 1) whose
name is the builtin name `require`. -/
def mC7 : Model :=
  ⟨[{ modifiers := [some 1] },
    { name := some "require" }]⟩

/-- A function (entity 0) whose body consists of one CFG node (entity 1)
holding three call IRs (entities 2-4) targeting `require(bool)`,
`keccak256(bytes)` and `abi.encode()` (entities 5-7). -/
def mC7b : Model :=
  ⟨[{ nodes := [1] },
    { irs := [2, 3, 4] },
    { class_name := "SolidityCall", function := some 5 },
    { class_name := "SolidityCall", function := some 6 },
    { class_name := "SolidityCall", function := some 7 },
    { name := some "require(bool)" },
    { name := some "keccak256(bytes)" },
    { name := some "abi.encode()" }]⟩

/-- An implemented, non-synthetic constructor that is marked `view` — every
attribute access succeeds. -/
def viewConstructorView : FuncView :=
  { is_implemented := .ok true
    is_constructor_variables := .ok false
    visibility := .ok none
    view := .ok true
    pure := .ok false
    is_constructor := .ok true
    is_fallback := .ok false
    is_receive := .ok false }

/-- The §3 Call Node invariant, recursively: a node whose `cycle` flag is
set has an empty `calls` sequence. -/
inductive TreeCycleInv : CallNode → Prop where
  | mk {label contract kindLabel tooltip location cycle calls} :
      (cycle = true → calls = []) →
      (∀ c ∈ calls, TreeCycleInv c) →
      TreeCycleInv (.mk label contract kindLabel tooltip location cycle calls)

/-- Name admissibility of a collected target under the body-call filters:
its name (when it has one) is neither a custom-error revert nor — once the
parameter signature is stripped — a Solidity builtin. -/
def bodyTargetNameOk (m : Model) (t : CallTarget) : Bool :=
  match t.entity with
  | none => true
  | some e =>
    match (m.ent e).name with
    | none => true
    | some s =>
      !(strStartsWith s "revert ") && !(SOLIDITY_BUILTINS.contains (bareName s))

/-- The constructor-identity key of a `BaseConstructor` entry (and `none`
for every other entry). -/
def baseCtorKeyOf (m : Model) (t : CallTarget) : Option String :=
  if t.kind = "BaseConstructor" then t.entity.map (entKey m) else none

/-- An entry point `C.f()` (entity 0) whose body directly calls itself:
one CFG node (entity 1) with one internal-call IR (entity 2) back to
entity 0. -/
def mC10 : Model :=
  ⟨[{ canonical_name := some "C.f()", name := some "f",
      is_implemented := some true, visibility := some "public",
      nodes := [1] },
    { irs := [2] },
    { class_name := "InternalCall", function := some 0 }]⟩

/-- The node the builder emits for the recursive self-call of `mC10`. -/
def nC10 : CallNode :=
  .mk "f" none "Internal" "C.f()" none true []

/-- A contract (entity 0) with a private helper `C.g()` (entity 1) writing
state variable `C.x` (entity 4), a public entry point `C.f()` (entity 2)
that is the helper's only caller, and an unrelated public function `C.h()`
(entity 3). -/
def mC9 : Model :=
  ⟨[{ name := some "C", functions := [1, 2, 3] },
    { canonical_name := some "C.g()", name := some "g",
      is_implemented := some true, visibility := some "private",
      is_function_contract := true,
      all_state_variables_written := some [4] },
    { canonical_name := some "C.f()", name := some "f",
      is_implemented := some true, visibility := some "public",
      is_function_contract := true, internal_calls := [1],
      all_state_variables_written := some [4] },
    { canonical_name := some "C.h()", name := some "h",
      is_implemented := some true, visibility := some "public",
      is_function_contract := true,
      all_state_variables_written := some [] },
    { canonical_name := some "C.x", name := some "x" }]⟩

/-! ### C1 — implementation resolver scoring and tie-break -/

/-- C1 counterexample.  With two candidates of equal maximal score, the
resolver returns the candidate with the lexicographically *largest*
canonical name (`B.f()`), not the smallest (`A.f()`) as the claim states:
`impls.sort(key=score, reverse=True)` reverses the name component of the
key as well. -/
theorem resolve_tiebreak_smallest_name_counterexample :
    implCandidates mC1 0 true = [1, 2] ∧
    implScoreKey mC1 1 = (20, "A.f()") ∧
    implScoreKey mC1 2 = (20, "B.f()") ∧
    strLtB "A.f()" "B.f()" = true ∧
    resolveToImplementation mC1 0 true = 2 :=
  ⟨rfl, rfl, rfl, rfl, rfl⟩

/-! ### C2 — state-changing entry point classifier -/

/-- C2 counterexample.  The claim says the classifier returns true
*unconditionally* for any implemented, non-synthetic constructor; but the
source tests `view`/`pure` *before* the constructor/fallback/receive test,
so an implemented constructor marked `view` yields `false`. -/
theorem state_changing_view_constructor_counterexample :
    viewConstructorView.is_implemented = .ok true ∧
    viewConstructorView.is_constructor_variables = .ok false ∧
    viewConstructorView.is_constructor = .ok true ∧
    isStateChangingEntrypointV viewConstructorView = false :=
  ⟨rfl, rfl, rfl, rfl⟩

/-- C2 amended: full characterization of `_is_state_changing_entrypoint`.
The function returns `true` iff every attribute access on the executed path
succeeds, the function is implemented and not a synthetic
constructor-variables initializer, it is neither `view` nor `pure` (these
tests precede and override the constructor/fallback/receive test), and it
is a constructor, fallback, or receive function, or else has `public` or
`external` visibility.  In particular any attribute-access failure on the
executed path yields `false`. -/
theorem state_changing_entrypoint_characterization (f : FuncView) :
    isStateChangingEntrypointV f = true ↔
      f.is_implemented = .ok true ∧
      f.is_constructor_variables = .ok false ∧
      ∃ vis, f.visibility = .ok vis ∧
        f.view = .ok false ∧ f.pure = .ok false ∧
        (f.is_constructor = .ok true ∨
          (f.is_constructor = .ok false ∧
            (f.is_fallback = .ok true ∨
              (f.is_fallback = .ok false ∧
                (f.is_receive = .ok true ∨
                  (f.is_receive = .ok false ∧
                    (vis = some "public" ∨ vis = some "external"))))))) := by
  obtain ⟨i, icv, vis, v, p, c, fb, rc⟩ := f
  simp only [isStateChangingEntrypointV]
  rcases i with u | b
  · simp
  rcases b with _ | _
  · simp
  rcases icv with u | b
  · simp
  rcases b with _ | _
  swap
  · simp
  rcases vis with u | vis
  · simp
  rcases v with u | b
  · simp
  rcases b with _ | _
  swap
  · simp
  rcases p with u | b
  · simp
  rcases b with _ | _
  swap
  · simp
  rcases c with u | b
  · simp
  rcases b with _ | _
  swap
  · simp
  rcases fb with u | b
  · simp
  rcases b with _ | _
  swap
  · simp
  rcases rc with u | b
  · simp
  rcases b with _ | _
  swap
  · simp
  simp [Bool.or_eq_true, decide_eq_true_iff]

/-! ### C5 — writer-list ordering does not determine the output -/

/-- C5: the writer list depends on the iteration order of the
`writing_entry_points` set.  Entities 1 and 2 of `mC5` are distinct entry
points with equal sort key `("C", "f")`; the stable sort at line 589 keeps
the set's iteration order among equal keys, so the two possible orders of
the same set produce different output. -/
theorem writer_list_order_dependent :
    List.Perm [1, 2] [2, 1] ∧
    buildWriterList osPath0 mC5 "" "t.sol" "C" [1, 2] ≠
      buildWriterList osPath0 mC5 "" "t.sol" "C" [2, 1] := by
  constructor
  · decide
  · decide

/-! ### C6 — flow ids of inherited overloads collide -/

/-- C6: two differently-parameterized overloads inherited from the same
abstract parent into the same concrete contract are both collected by
`get_inherited_functions` (their dedup keys `f(uint256)` and `f(bool)`
differ), yet receive the *same* `flowId`
`t.sol::C.f::from::P` — the inherited flow id uses the bare label, without
the parameter signature. -/
theorem inherited_overload_flowid_collision :
    getInheritedFunctions mC6 ["P"] true 1 = [(2, "P"), (3, "P")] ∧
    (mC6.ent 2).full_name ≠ (mC6.ent 3).full_name ∧
    inheritedFlowId mC6 "t.sol" "C" 2 "P" = "t.sol::C.f::from::P" ∧
    inheritedFlowId mC6 "t.sol" "C" 3 "P" = "t.sol::C.f::from::P" := by
  refine ⟨?_, ?_, ?_, ?_⟩ <;> first | rfl | decide

/-! ### C7 — builtin filtering -/

/-- C7 counterexample.  The builtin-name filter applies only to body call
instructions: a modifier whose name is the builtin `require` is emitted by
the collector unfiltered, so `collectCalls` *can* emit a target whose bare
name is in the builtin set. -/
theorem builtin_named_modifier_emitted :
    collectCalledTargets mC7 0 = [⟨"Modifier", some 1, none⟩] ∧
    (mC7.ent 1).name = some "require" ∧
    bareName "require" ∈ SOLIDITY_BUILTINS := by
  refine ⟨?_, ?_, ?_⟩ <;> first | rfl | decide

/-! ### Helper lemmas about the call collector -/

theorem collectModifierTargets_entity_isSome (m : Model) :
    ∀ (mods : List (Option Nat)) (seen : List String) (t : CallTarget),
      t ∈ (collectModifierTargets m seen mods).1 → t.entity.isSome := by
  intro mods
  induction mods with
  | nil => intro seen t ht; simp [collectModifierTargets] at ht
  | cons mo rest ih =>
    intro seen t ht
    cases mo with
    | none =>
      exact ih seen t (by simpa [collectModifierTargets] using ht)
    | some mid =>
      rw [collectModifierTargets] at ht
      rcases h : (m.ent mid).constructors_declared with _ | bc
      · simp only [h, List.mem_cons] at ht
        rcases ht with rfl | ht
        · rfl
        · exact ih seen t ht
      · simp only [h] at ht
        by_cases hc : entKey m bc ∈ seen
        · rw [if_pos hc] at ht
          exact ih seen t ht
        · rw [if_neg hc] at ht
          simp only [List.mem_cons] at ht
          rcases ht with rfl | ht
          · rfl
          · exact ih _ t ht

theorem collectExplicitCtorTargets_entity_isSome (m : Model) :
    ∀ (ctors : List (Option Nat)) (seen : List String) (t : CallTarget),
      t ∈ (collectExplicitCtorTargets m seen ctors).1 → t.entity.isSome := by
  intro ctors
  induction ctors with
  | nil => intro seen t ht; simp [collectExplicitCtorTargets] at ht
  | cons mo rest ih =>
    intro seen t ht
    cases mo with
    | none =>
      exact ih seen t (by simpa [collectExplicitCtorTargets] using ht)
    | some bc =>
      rw [collectExplicitCtorTargets] at ht
      by_cases hc : entKey m bc ∈ seen
      · rw [if_pos hc] at ht
        exact ih seen t ht
      · rw [if_neg hc] at ht
        simp only [List.mem_cons] at ht
        rcases ht with rfl | ht
        · rfl
        · exact ih _ t ht

theorem collectIrTargets_entity_isSome (m : Model) (nid : Nat) :
    ∀ (irs : List Nat) (seen : List String) (t : CallTarget),
      t ∈ (collectIrTargets m nid seen irs).1 → t.entity.isSome := by
  intro irs
  induction irs with
  | nil => intro seen t ht; simp [collectIrTargets] at ht
  | cons irId rest ih =>
    intro seen t ht
    rw [collectIrTargets] at ht
    rcases hf : (m.ent irId).function with _ | tgt
    · simp only [hf] at ht
      exact ih seen t ht
    · simp only [hf] at ht
      by_cases hmod : (m.ent irId).is_modifier_call.getD false = true
      · rw [if_pos hmod] at ht
        exact ih seen t ht
      · rw [if_neg hmod] at ht
        by_cases hseen : entKey m tgt ∈ seen
        · rw [if_pos hseen] at ht
          exact ih seen t ht
        · rw [if_neg hseen] at ht
          rcases hn : (m.ent tgt).name with _ | nm
          · simp only [hn, List.mem_cons] at ht
            rcases ht with rfl | ht
            · rfl
            · exact ih _ t ht
          · simp only [hn] at ht
            by_cases hrev : strStartsWith nm "revert " = true
            · rw [if_pos hrev] at ht
              exact ih _ t ht
            · rw [if_neg hrev] at ht
              by_cases hbi : SOLIDITY_BUILTINS.contains (bareName nm) = true
              · rw [if_pos hbi] at ht
                exact ih _ t ht
              · rw [if_neg hbi] at ht
                simp only [List.mem_cons] at ht
                rcases ht with rfl | ht
                · rfl
                · exact ih _ t ht

theorem collectBodyTargets_entity_isSome (m : Model) :
    ∀ (ns : List Nat) (seen : List String) (t : CallTarget),
      t ∈ (collectBodyTargets m seen ns).1 → t.entity.isSome := by
  intro ns
  induction ns with
  | nil => intro seen t ht; simp [collectBodyTargets] at ht
  | cons nid rest ih =>
    intro seen t ht
    rw [collectBodyTargets] at ht
    simp only [List.mem_append] at ht
    rcases ht with ht | ht
    · exact collectIrTargets_entity_isSome m nid _ seen t ht
    · exact ih _ t ht

/-- Every tuple appended by `_collect_called_targets` carries a target
object: although the tuple type admits `None`, the collector never stores
one. -/
theorem collectCalledTargets_entity_isSome (m : Model) (fid : Nat) :
    ∀ t ∈ collectCalledTargets m fid, t.entity.isSome := by
  intro t ht
  rw [collectCalledTargets] at ht
  simp only [List.mem_append] at ht
  rcases ht with (ht | ht) | ht
  · exact collectModifierTargets_entity_isSome m _ _ t ht
  · exact collectExplicitCtorTargets_entity_isSome m _ _ t ht
  · exact collectBodyTargets_entity_isSome m _ _ t ht

theorem length_filterMap_of_isSome {α β : Type} (f : α → Option β) :
    ∀ l : List α, (∀ a ∈ l, (f a).isSome) → (l.filterMap f).length = l.length := by
  intro l
  induction l with
  | nil => intro _; rfl
  | cons a rest ih =>
    intro h
    have ha := h a (List.mem_cons_self a rest)
    rcases hfa : f a with _ | b
    · rw [hfa] at ha; simp at ha
    · rw [List.filterMap_cons, hfa]
      simp only [List.length_cons]
      rw [ih (fun x hx => h x (List.mem_cons_of_mem a hx))]

/-! ### Helper lemmas about the call tree builder -/

theorem serializeTarget_eq_some (os : OsPath) (m : Model) (root : String)
    (excl expd : Bool) (recurse : Nat → List String → List CallNode)
    (anc : List String) (t : CallTarget) (h : t.entity.isSome) :
    (serializeTarget os m root excl expd recurse anc t).isSome := by
  obtain ⟨k, ent, cs⟩ := t
  cases ent with
  | none => simp at h
  | some tid0 => simp [serializeTarget]

theorem serializeTarget_no_recursion_calls_empty (os : OsPath) (m : Model)
    (root : String) (excl expd : Bool)
    (recurse : Nat → List String → List CallNode)
    (hrec : ∀ a b, recurse a b = [])
    (anc : List String) (t : CallTarget) (n : CallNode)
    (h : serializeTarget os m root excl expd recurse anc t = some n) :
    n.calls = [] := by
  have hreq : recurse = fun _ _ => ([] : List CallNode) :=
    funext fun a => funext fun b => hrec a b
  subst hreq
  obtain ⟨k, ent, cs⟩ := t
  cases ent with
  | none => simp [serializeTarget] at h
  | some tid0 =>
    simp only [serializeTarget, Option.some.injEq] at h
    subst h
    simp [CallNode.calls]

/-- C4: with `maxDepth = depth` the builder returns the empty sequence;
with `maxDepth = depth + 1` it returns exactly one node per collected call
target, each with an empty `calls` sub-sequence. -/
theorem call_tree_depth_bound (os : OsPath) (m : Model) (root : String)
    (excl expd : Bool) (d : Nat) (fid : Nat) (anc : List String) :
    serializeCallTree os m root d excl expd d fid anc = [] ∧
    (serializeCallTree os m root (d + 1) excl expd d fid anc).length =
      (collectCalledTargets m fid).length ∧
    (serializeCallTree os m root (d + 1) excl expd d fid anc).Forall
      (fun n => n.calls = []) := by
  have h1 : d + 1 - d = 1 := by omega
  refine ⟨?_, ?_, ?_⟩
  · rw [serializeCallTree, Nat.sub_self]; rfl
  · rw [serializeCallTree, h1]
    rw [serializeAux]
    exact length_filterMap_of_isSome _ _ (fun t ht =>
      serializeTarget_eq_some os m root excl expd _ anc t
        (collectCalledTargets_entity_isSome m fid t ht))
  · rw [serializeCallTree, h1, serializeAux,
      List.forall_iff_forall_mem]
    intro n hn
    rw [List.mem_filterMap] at hn
    obtain ⟨t, _, heq⟩ := hn
    exact serializeTarget_no_recursion_calls_empty os m root excl expd _
      (fun a b => rfl) anc t n heq

/-- C3: every node of every call tree the builder produces satisfies the
cycle invariant: a node marked `cycle` has no children (the builder does
not recurse into a target whose identity is already among the ancestors).
Termination for arbitrary inputs — cyclic call graphs included — holds by
construction: the builder is a total function of the remaining depth
budget. -/
theorem call_tree_cycle_nodes_empty (os : OsPath) (m : Model) (root : String)
    (max_depth : Nat) (excl expd : Bool) (depth : Nat) (fid : Nat)
    (anc : List String) :
    (serializeCallTree os m root max_depth excl expd depth fid anc).Forall
      TreeCycleInv := by
  rw [serializeCallTree]
  generalize max_depth - depth = fuel
  induction fuel generalizing fid anc with
  | zero => rw [serializeAux]; exact trivial
  | succ fuel ih =>
    rw [serializeAux, List.forall_iff_forall_mem]
    intro n hn
    rw [List.mem_filterMap] at hn
    obtain ⟨t, _, heq⟩ := hn
    obtain ⟨k, ent, cs⟩ := t
    cases ent with
    | none => simp [serializeTarget] at heq
    | some tid0 =>
      simp only [serializeTarget, Option.some.injEq] at heq
      subst heq
      constructor
      · intro hcyc
        rw [hcyc]
        simp
      · intro c hc
        split at hc
        · exact (List.forall_iff_forall_mem.mp (ih _ _)) c hc
        · simp at hc

/-! ### C10 — self-calls of the entry point are cycle-stopped at any depth -/

/-- C10: `main` seeds the traversal's ancestor set with the entry point's
canonical name (else its label), and at *any* invocation whose ancestor set
contains that canonical name — the set only grows along the recursion, so
this holds at every depth, whatever the remaining depth budget — a call
target whose resolved implementation is the entry point itself is emitted
with `cycle = true` and an empty `calls` sequence, i.e. is not recursed
into. -/
theorem self_call_cycle_detected_at_any_depth (os : OsPath) (m : Model)
    (root : String) (max_depth : Nat) (excl expd : Bool)
    (recurse : Nat → List String → List CallNode) (anc : List String)
    (t : CallTarget) (n : CallNode) (fid : Nat) (c : String)
    (hcanon : (m.ent fid).canonical_name = some c) (hne : c ≠ "")
    (hanc : c ∈ anc)
    (hres : t.entity.map (fun tid0 => resolveToImplementation m tid0 excl) = some fid)
    (hser : serializeTarget os m root excl expd recurse anc t = some n) :
    n.cycle = true ∧ n.calls = [] ∧
    entrypointCalls os m root max_depth excl expd fid =
      serializeAux os m root excl expd (max 1 max_depth) fid [c] := by
  obtain ⟨k, ent, cs⟩ := t
  cases ent with
  | none => simp at hres
  | some tid0 =>
    simp only [Option.map_some', Option.some.injEq] at hres
    simp only [serializeTarget, Option.some.injEq] at hser
    subst hser
    have hok : targetCanonOk m fid = true := by
      simp [targetCanonOk, hcanon, hne]
    have hid : targetNodeId m k fid = c := by
      simp [targetNodeId, hok, hcanon]
    have hdec : decide (targetNodeId m k (resolveToImplementation m tid0 excl) ∈ anc)
        = true := by
      rw [hres, hid]; exact decide_eq_true hanc
    refine ⟨?_, ?_, ?_⟩
    · simp only [CallNode.cycle]
      exact hdec
    · simp only [CallNode.calls]
      rw [hdec]
      simp
    · rw [entrypointCalls]
      simp only [hcanon, Option.getD_some]
      rw [if_pos hne, serializeCallTree, Nat.sub_zero]

/-- Witness for C10 at the self-recursive entry point of `mC10`. -/
theorem self_call_cycle_detected_at_any_depth_witness :
    nC10.cycle = true ∧ nC10.calls = [] ∧
    entrypointCalls osPath0 mC10 "" 10 true false 0 =
      serializeAux osPath0 mC10 "" true false (max 1 10) 0 ["C.f()"] :=
  self_call_cycle_detected_at_any_depth osPath0 mC10 "" 10 true false
    (fun _ _ => []) ["C.f()"] ⟨"Internal", some 0, none⟩ nC10 0 "C.f()"
    rfl (by decide) (by decide) rfl rfl

/-! ### C7 — amended: the name filter governs body call instructions -/

theorem collectIrTargets_nameOk (m : Model) (nid : Nat) :
    ∀ (irs : List Nat) (seen : List String),
      ((collectIrTargets m nid seen irs).1.all (bodyTargetNameOk m)) = true := by
  intro irs
  induction irs with
  | nil => intro seen; rfl
  | cons irId rest ih =>
    intro seen
    rw [collectIrTargets]
    rcases hf : (m.ent irId).function with _ | tgt
    · simp only [hf]
      exact ih seen
    · simp only [hf]
      by_cases hmod : (m.ent irId).is_modifier_call.getD false = true
      · rw [if_pos hmod]
        exact ih seen
      · rw [if_neg hmod]
        by_cases hseen : entKey m tgt ∈ seen
        · rw [if_pos hseen]
          exact ih seen
        · rw [if_neg hseen]
          rcases hn : (m.ent tgt).name with _ | nm
          · simp only [hn, List.all_cons]
            rw [ih _]
            simp [bodyTargetNameOk, hn]
          · simp only [hn]
            by_cases hrev : strStartsWith nm "revert " = true
            · rw [if_pos hrev]
              exact ih _
            · rw [if_neg hrev]
              by_cases hbi : SOLIDITY_BUILTINS.contains (bareName nm) = true
              · rw [if_pos hbi]
                exact ih _
              · rw [if_neg hbi]
                simp only [List.all_cons]
                rw [ih _]
                have hbi' : bareName nm ∉ SOLIDITY_BUILTINS := by simpa using hbi
                simp [bodyTargetNameOk, hn, hrev, hbi']

theorem collectBodyTargets_nameOk (m : Model) :
    ∀ (ns : List Nat) (seen : List String),
      ((collectBodyTargets m seen ns).1.all (bodyTargetNameOk m)) = true := by
  intro ns
  induction ns with
  | nil => intro seen; rfl
  | cons nid rest ih =>
    intro seen
    rw [collectBodyTargets]
    simp only [List.all_append]
    rw [collectIrTargets_nameOk m nid _ seen, ih _]
    rfl

/-- C7 amended: the revert/builtin name filter is applied to (and only to)
body call instructions — every target the body collector emits has a name
that is neither a custom-error revert nor, with its parameter signature
stripped, a member of the builtin set (modifier and base-constructor
entries are exempt, see the counterexample) — and consequently a function
whose body only calls `require(...)`, `keccak256(...)` and `abi.encode(...)`
yields no collected targets and an empty entry-point call tree. -/
theorem body_calls_builtin_filtered :
    (∀ (m : Model) (ns : List Nat) (seen : List String),
      ((collectBodyTargets m seen ns).1.all (bodyTargetNameOk m)) = true) ∧
    collectCalledTargets mC7b 0 = [] ∧
    entrypointCalls osPath0 mC7b "" 10 true false 0 = [] := by
  refine ⟨collectBodyTargets_nameOk, ?_, ?_⟩
  · rfl
  · rfl

/-! ### C8 — call collector output ordering and base-constructor dedup -/

theorem nodeKeyLe_refl (a : Nat × Nat) : nodeKeyLe a a := by
  unfold nodeKeyLe; omega

theorem nodeKeyLe_trans (a b c : Nat × Nat) :
    nodeKeyLe a b → nodeKeyLe b c → nodeKeyLe a c := by
  unfold nodeKeyLe; omega

theorem nodeKeyLe_total (a b : Nat × Nat) : nodeKeyLe a b ∨ nodeKeyLe b a := by
  unfold nodeKeyLe; omega

/-- The sorted node list is ascending in `_node_key` order. -/
theorem sortNodes_sorted (m : Model) (ns : List Nat) :
    (sortNodes m ns).Pairwise (fun a b => nodeKeyLe (nodeKey m a) (nodeKey m b)) := by
  unfold sortNodes
  haveI : IsTotal Nat (fun a b => nodeKeyLe (nodeKey m a) (nodeKey m b)) :=
    ⟨fun a b => nodeKeyLe_total _ _⟩
  haveI : IsTrans Nat (fun a b => nodeKeyLe (nodeKey m a) (nodeKey m b)) :=
    ⟨fun a b c => nodeKeyLe_trans _ _ _⟩
  exact List.sorted_insertionSort _ _

theorem irKindLabel_ne_baseCtor (m : Model) (i t : Nat) :
    irKindLabel m i t ≠ "BaseConstructor" := by
  unfold irKindLabel
  split
  · decide
  split
  · decide
  split
  · decide
  · decide

/-- Every body-collector entry carries its node as callsite and is never a
`BaseConstructor` entry. -/
theorem collectIrTargets_mem_shape (m : Model) (nid : Nat) :
    ∀ (irs : List Nat) (seen : List String) (t : CallTarget),
      t ∈ (collectIrTargets m nid seen irs).1 →
      t.callsite = some nid ∧ t.kind ≠ "BaseConstructor" := by
  intro irs
  induction irs with
  | nil => intro seen t ht; simp [collectIrTargets] at ht
  | cons irId rest ih =>
    intro seen t ht
    rw [collectIrTargets] at ht
    rcases hf : (m.ent irId).function with _ | tgt
    · simp only [hf] at ht
      exact ih seen t ht
    · simp only [hf] at ht
      by_cases hmod : (m.ent irId).is_modifier_call.getD false = true
      · rw [if_pos hmod] at ht
        exact ih seen t ht
      · rw [if_neg hmod] at ht
        by_cases hseen : entKey m tgt ∈ seen
        · rw [if_pos hseen] at ht
          exact ih seen t ht
        · rw [if_neg hseen] at ht
          rcases hn : (m.ent tgt).name with _ | nm
          · simp only [hn, List.mem_cons] at ht
            rcases ht with rfl | ht
            · exact ⟨rfl, irKindLabel_ne_baseCtor m irId tgt⟩
            · exact ih _ t ht
          · simp only [hn] at ht
            by_cases hrev : strStartsWith nm "revert " = true
            · rw [if_pos hrev] at ht
              exact ih _ t ht
            · rw [if_neg hrev] at ht
              by_cases hbi : SOLIDITY_BUILTINS.contains (bareName nm) = true
              · rw [if_pos hbi] at ht
                exact ih _ t ht
              · rw [if_neg hbi] at ht
                simp only [List.mem_cons] at ht
                rcases ht with rfl | ht
                · exact ⟨rfl, irKindLabel_ne_baseCtor m irId tgt⟩
                · exact ih _ t ht

theorem collectBodyTargets_mem_shape (m : Model) :
    ∀ (ns : List Nat) (seen : List String) (t : CallTarget),
      t ∈ (collectBodyTargets m seen ns).1 →
      ∃ n ∈ ns, t.callsite = some n ∧ t.kind ≠ "BaseConstructor" := by
  intro ns
  induction ns with
  | nil => intro seen t ht; simp [collectBodyTargets] at ht
  | cons nid rest ih =>
    intro seen t ht
    simp only [collectBodyTargets, List.mem_append] at ht
    rcases ht with ht | ht
    · exact ⟨nid, List.mem_cons_self nid rest, collectIrTargets_mem_shape m nid _ seen t ht⟩
    · obtain ⟨n, hn, hshape⟩ := ih _ t ht
      exact ⟨n, List.mem_cons_of_mem nid hn, hshape⟩

theorem collectBodyTargets_no_baseCtorKeys (m : Model) (ns : List Nat)
    (seen : List String) :
    ((collectBodyTargets m seen ns).1.filterMap (baseCtorKeyOf m)) = [] := by
  rw [List.filterMap_eq_nil_iff]
  intro t ht
  obtain ⟨n, _, _, hk⟩ := collectBodyTargets_mem_shape m ns seen t ht
  simp [baseCtorKeyOf, hk]

/-- State of the `seen_base_ctors` set across the modifier section: the keys
it gains are exactly the emitted `BaseConstructor` keys, which are fresh and
pairwise distinct. -/
theorem collectModifierTargets_keys (m : Model) :
    ∀ (mods : List (Option Nat)) (seen : List String),
      (collectModifierTargets m seen mods).2 =
        ((collectModifierTargets m seen mods).1.filterMap (baseCtorKeyOf m)).reverse
          ++ seen ∧
      ((collectModifierTargets m seen mods).1.filterMap (baseCtorKeyOf m)).Nodup ∧
      ∀ k ∈ (collectModifierTargets m seen mods).1.filterMap (baseCtorKeyOf m),
        k ∉ seen := by
  intro mods
  induction mods with
  | nil =>
    intro seen
    exact ⟨rfl, List.nodup_nil, by intro k hk; simp [collectModifierTargets] at hk⟩
  | cons mo rest ih =>
    intro seen
    cases mo with
    | none => simpa only [collectModifierTargets] using ih seen
    | some mid =>
      rw [collectModifierTargets]
      rcases h : (m.ent mid).constructors_declared with _ | bc
      · simp only [h]
        have hkey : baseCtorKeyOf m ⟨"Modifier", some mid, none⟩ = none := by
          simp [baseCtorKeyOf]
        simp only [List.filterMap_cons, hkey]
        exact ih seen
      · simp only [h]
        by_cases hc : entKey m bc ∈ seen
        · rw [if_pos hc]
          exact ih seen
        · rw [if_neg hc]
          have hkey : baseCtorKeyOf m ⟨"BaseConstructor", some bc, none⟩ =
              some (entKey m bc) := by
            simp [baseCtorKeyOf]
          obtain ⟨ih1, ih2, ih3⟩ := ih (entKey m bc :: seen)
          simp only [List.filterMap_cons, hkey]
          refine ⟨?_, ?_, ?_⟩
          · rw [List.reverse_cons, List.append_assoc, List.singleton_append, ih1]
          · refine List.nodup_cons.mpr ⟨?_, ih2⟩
            intro hmem
            exact (ih3 _ hmem) (List.mem_cons_self _ _)
          · intro k hk
            rcases List.mem_cons.mp hk with rfl | hk
            · exact hc
            · intro hks
              exact (ih3 k hk) (List.mem_cons_of_mem _ hks)

/-- Same statement for the explicit base-constructor section. -/
theorem collectExplicitCtorTargets_keys (m : Model) :
    ∀ (ctors : List (Option Nat)) (seen : List String),
      (collectExplicitCtorTargets m seen ctors).2 =
        ((collectExplicitCtorTargets m seen ctors).1.filterMap (baseCtorKeyOf m)).reverse
          ++ seen ∧
      ((collectExplicitCtorTargets m seen ctors).1.filterMap (baseCtorKeyOf m)).Nodup ∧
      ∀ k ∈ (collectExplicitCtorTargets m seen ctors).1.filterMap (baseCtorKeyOf m),
        k ∉ seen := by
  intro ctors
  induction ctors with
  | nil =>
    intro seen
    exact ⟨rfl, List.nodup_nil, by intro k hk; simp [collectExplicitCtorTargets] at hk⟩
  | cons mo rest ih =>
    intro seen
    cases mo with
    | none => simpa only [collectExplicitCtorTargets] using ih seen
    | some bc =>
      rw [collectExplicitCtorTargets]
      by_cases hc : entKey m bc ∈ seen
      · rw [if_pos hc]
        exact ih seen
      · rw [if_neg hc]
        have hkey : baseCtorKeyOf m ⟨"BaseConstructor", some bc, none⟩ =
            some (entKey m bc) := by
          simp [baseCtorKeyOf]
        obtain ⟨ih1, ih2, ih3⟩ := ih (entKey m bc :: seen)
        simp only [List.filterMap_cons, hkey]
        refine ⟨?_, ?_, ?_⟩
        · rw [List.reverse_cons, List.append_assoc, List.singleton_append, ih1]
        · refine List.nodup_cons.mpr ⟨?_, ih2⟩
          intro hmem
          exact (ih3 _ hmem) (List.mem_cons_self _ _)
        · intro k hk
          rcases List.mem_cons.mp hk with rfl | hk
          · exact hc
          · intro hks
            exact (ih3 k hk) (List.mem_cons_of_mem _ hks)

/-- A base constructor carried by any attached modifier is either already in
`seen` or among the emitted `BaseConstructor` keys of the section. -/
theorem collectModifierTargets_ctor_covered (m : Model) :
    ∀ (mods : List (Option Nat)) (seen : List String) (mid bc : Nat),
      some mid ∈ mods → (m.ent mid).constructors_declared = some bc →
      entKey m bc ∈ seen ∨
        entKey m bc ∈ (collectModifierTargets m seen mods).1.filterMap (baseCtorKeyOf m) := by
  intro mods
  induction mods with
  | nil => intro seen mid bc hmem; simp at hmem
  | cons mo rest ih =>
    intro seen mid bc hmem hctor
    rcases List.mem_cons.mp hmem with rfl | hmem'
    · rw [collectModifierTargets]
      simp only [hctor]
      by_cases hc : entKey m bc ∈ seen
      · exact Or.inl hc
      · rw [if_neg hc]
        have hkey : baseCtorKeyOf m ⟨"BaseConstructor", some bc, none⟩ =
            some (entKey m bc) := by
          simp [baseCtorKeyOf]
        simp only [List.filterMap_cons, hkey]
        exact Or.inr (List.mem_cons_self _ _)
    · clear hmem
      cases mo with
      | none =>
        rw [collectModifierTargets]
        exact ih seen mid bc hmem' hctor
      | some mid' =>
        rw [collectModifierTargets]
        rcases h : (m.ent mid').constructors_declared with _ | bc'
        · simp only [h]
          have hkey : baseCtorKeyOf m ⟨"Modifier", some mid', none⟩ = none := by
            simp [baseCtorKeyOf]
          simp only [List.filterMap_cons, hkey]
          exact ih seen mid bc hmem' hctor
        · simp only [h]
          by_cases hc : entKey m bc' ∈ seen
          · rw [if_pos hc]
            exact ih seen mid bc hmem' hctor
          · rw [if_neg hc]
            have hkey : baseCtorKeyOf m ⟨"BaseConstructor", some bc', none⟩ =
                some (entKey m bc') := by
              simp [baseCtorKeyOf]
            simp only [List.filterMap_cons, hkey]
            rcases ih (entKey m bc' :: seen) mid bc hmem' hctor with hl | hr
            · rcases List.mem_cons.mp hl with heq | hl
              · exact Or.inr (heq ▸ List.mem_cons_self _ _)
              · exact Or.inl hl
            · exact Or.inr (List.mem_cons_of_mem _ hr)

/-- Every explicit base constructor is either already in `seen` or among the
emitted `BaseConstructor` keys of the explicit section. -/
theorem collectExplicitCtorTargets_covered (m : Model) :
    ∀ (ctors : List (Option Nat)) (seen : List String) (bc : Nat),
      some bc ∈ ctors →
      entKey m bc ∈ seen ∨
        entKey m bc ∈ (collectExplicitCtorTargets m seen ctors).1.filterMap (baseCtorKeyOf m) := by
  intro ctors
  induction ctors with
  | nil => intro seen bc hmem; simp at hmem
  | cons mo rest ih =>
    intro seen bc hmem
    rcases List.mem_cons.mp hmem with rfl | hmem'
    · rw [collectExplicitCtorTargets]
      by_cases hc : entKey m bc ∈ seen
      · exact Or.inl hc
      · rw [if_neg hc]
        have hkey : baseCtorKeyOf m ⟨"BaseConstructor", some bc, none⟩ =
            some (entKey m bc) := by
          simp [baseCtorKeyOf]
        simp only [List.filterMap_cons, hkey]
        exact Or.inr (List.mem_cons_self _ _)
    · clear hmem
      cases mo with
      | none =>
        rw [collectExplicitCtorTargets]
        exact ih seen bc hmem'
      | some bc' =>
        rw [collectExplicitCtorTargets]
        by_cases hc : entKey m bc' ∈ seen
        · rw [if_pos hc]
          exact ih seen bc hmem'
        · rw [if_neg hc]
          have hkey : baseCtorKeyOf m ⟨"BaseConstructor", some bc', none⟩ =
              some (entKey m bc') := by
            simp [baseCtorKeyOf]
          simp only [List.filterMap_cons, hkey]
          rcases ih (entKey m bc' :: seen) bc hmem' with hl | hr
          · rcases List.mem_cons.mp hl with heq | hl
            · exact Or.inr (heq ▸ List.mem_cons_self _ _)
            · exact Or.inl hl
          · exact Or.inr (List.mem_cons_of_mem _ hr)

/-- The `Modifier`-kind entries of the modifier section are exactly one per
attached non-`None` modifier that does not stand for a base constructor,
in attachment order. -/
theorem collectModifierTargets_modifier_entries (m : Model) :
    ∀ (mods : List (Option Nat)) (seen : List String),
      (collectModifierTargets m seen mods).1.filter
          (fun t => decide (t.kind = "Modifier")) =
        ((mods.filterMap id).filter
          (fun mid => (m.ent mid).constructors_declared.isNone)).map
          (fun mid => (⟨"Modifier", some mid, none⟩ : CallTarget)) := by
  intro mods
  induction mods with
  | nil => intro seen; rfl
  | cons mo rest ih =>
    intro seen
    cases mo with
    | none =>
      simp only [collectModifierTargets, List.filterMap_cons]
      exact ih seen
    | some mid =>
      rw [collectModifierTargets]
      rcases h : (m.ent mid).constructors_declared with _ | bc
      · simpa [h, List.filter_cons] using ih seen
      · by_cases hc : entKey m bc ∈ seen
        · simpa [h, hc, List.filter_cons] using ih seen
        · simpa [h, hc, List.filter_cons] using ih (entKey m bc :: seen)

theorem collectModifierTargets_kinds (m : Model) :
    ∀ (mods : List (Option Nat)) (seen : List String) (t : CallTarget),
      t ∈ (collectModifierTargets m seen mods).1 →
      t.kind = "Modifier" ∨ t.kind = "BaseConstructor" := by
  intro mods
  induction mods with
  | nil => intro seen t ht; simp [collectModifierTargets] at ht
  | cons mo rest ih =>
    intro seen t ht
    cases mo with
    | none => exact ih seen t (by simpa only [collectModifierTargets] using ht)
    | some mid =>
      rw [collectModifierTargets] at ht
      rcases h : (m.ent mid).constructors_declared with _ | bc
      · simp only [h, List.mem_cons] at ht
        rcases ht with rfl | ht
        · exact Or.inl rfl
        · exact ih seen t ht
      · simp only [h] at ht
        by_cases hc : entKey m bc ∈ seen
        · rw [if_pos hc] at ht
          exact ih seen t ht
        · rw [if_neg hc] at ht
          rcases List.mem_cons.mp ht with rfl | ht
          · exact Or.inr rfl
          · exact ih _ t ht

theorem collectExplicitCtorTargets_kinds (m : Model) :
    ∀ (ctors : List (Option Nat)) (seen : List String) (t : CallTarget),
      t ∈ (collectExplicitCtorTargets m seen ctors).1 →
      t.kind = "BaseConstructor" := by
  intro ctors
  induction ctors with
  | nil => intro seen t ht; simp [collectExplicitCtorTargets] at ht
  | cons mo rest ih =>
    intro seen t ht
    cases mo with
    | none => exact ih seen t (by simpa only [collectExplicitCtorTargets] using ht)
    | some bc =>
      rw [collectExplicitCtorTargets] at ht
      by_cases hc : entKey m bc ∈ seen
      · rw [if_pos hc] at ht
        exact ih seen t ht
      · rw [if_neg hc] at ht
        rcases List.mem_cons.mp ht with rfl | ht
        · rfl
        · exact ih _ t ht

/-- Body targets of sorted nodes appear in ascending `_node_key` order of
their callsites. -/
theorem collectBodyTargets_pairwise (m : Model) :
    ∀ (ns : List Nat) (seen : List String),
      ns.Pairwise (fun a b => nodeKeyLe (nodeKey m a) (nodeKey m b)) →
      (collectBodyTargets m seen ns).1.Pairwise (fun a b =>
        ∀ ca cb, a.callsite = some ca → b.callsite = some cb →
          nodeKeyLe (nodeKey m ca) (nodeKey m cb)) := by
  intro ns
  induction ns with
  | nil => intro seen _; exact List.Pairwise.nil
  | cons nid rest ih =>
    intro seen hp
    obtain ⟨hhead, htail⟩ := List.pairwise_cons.mp hp
    simp only [collectBodyTargets]
    rw [List.pairwise_append]
    refine ⟨?_, ih _ htail, ?_⟩
    · apply List.pairwise_of_forall_mem_list
      intro a ha b hb ca cb hca hcb
      have ha' := (collectIrTargets_mem_shape m nid _ _ a ha).1
      have hb' := (collectIrTargets_mem_shape m nid _ _ b hb).1
      rw [ha'] at hca
      rw [hb'] at hcb
      cases hca
      cases hcb
      exact nodeKeyLe_refl _
    · intro a ha b hb ca cb hca hcb
      have ha' := (collectIrTargets_mem_shape m nid _ _ a ha).1
      obtain ⟨n', hn', hb', _⟩ := collectBodyTargets_mem_shape m rest _ b hb
      rw [ha'] at hca
      rw [hb'] at hcb
      cases hca
      cases hcb
      exact hhead _ hn'

/-- C8: the collector's output is the modifier section (one entry per
attached modifier, base-constructor modifiers emitted as `BaseConstructor`),
followed by the explicit base-constructor section, followed by the body
call instructions in ascending source-position (`_node_key`) order; every
modifier-carried or explicit base constructor appears among the
`BaseConstructor` entries, and any given base constructor appears at most
once among them. -/
theorem collect_called_targets_ordering (m : Model) (fid : Nat) :
    ∃ t1 t2 t3 s1 s2 s3,
      collectModifierTargets m [] (m.ent fid).modifiers = (t1, s1) ∧
      collectExplicitCtorTargets m s1 (m.ent fid).explicit_base_constructor_calls
        = (t2, s2) ∧
      collectBodyTargets m s2 (sortNodes m (m.ent fid).nodes) = (t3, s3) ∧
      collectCalledTargets m fid = t1 ++ t2 ++ t3 ∧
      t1.filter (fun t => decide (t.kind = "Modifier")) =
        (((m.ent fid).modifiers.filterMap id).filter
          (fun mid => (m.ent mid).constructors_declared.isNone)).map
          (fun mid => (⟨"Modifier", some mid, none⟩ : CallTarget)) ∧
      (∀ t ∈ t1, t.kind = "Modifier" ∨ t.kind = "BaseConstructor") ∧
      (∀ t ∈ t2, t.kind = "BaseConstructor") ∧
      (∀ mid bc, some mid ∈ (m.ent fid).modifiers →
        (m.ent mid).constructors_declared = some bc →
        entKey m bc ∈ (collectCalledTargets m fid).filterMap (baseCtorKeyOf m)) ∧
      (∀ bc, some bc ∈ (m.ent fid).explicit_base_constructor_calls →
        entKey m bc ∈ (collectCalledTargets m fid).filterMap (baseCtorKeyOf m)) ∧
      ((collectCalledTargets m fid).filterMap (baseCtorKeyOf m)).Nodup ∧
      (∀ t ∈ t3, t.callsite.isSome ∧ t.kind ≠ "BaseConstructor") ∧
      t3.Pairwise (fun a b => ∀ ca cb, a.callsite = some ca → b.callsite = some cb →
        nodeKeyLe (nodeKey m ca) (nodeKey m cb)) := by
  refine ⟨(collectModifierTargets m [] (m.ent fid).modifiers).1,
    (collectExplicitCtorTargets m (collectModifierTargets m [] (m.ent fid).modifiers).2
      (m.ent fid).explicit_base_constructor_calls).1,
    (collectBodyTargets m
      (collectExplicitCtorTargets m (collectModifierTargets m [] (m.ent fid).modifiers).2
        (m.ent fid).explicit_base_constructor_calls).2
      (sortNodes m (m.ent fid).nodes)).1,
    _, _, _, rfl, rfl, rfl, rfl,
    collectModifierTargets_modifier_entries m _ _,
    collectModifierTargets_kinds m _ _,
    collectExplicitCtorTargets_kinds m _ _,
    ?_, ?_, ?_, ?_, ?_⟩
  · intro mid bc hmem hctor
    rw [collectCalledTargets]
    simp only [List.filterMap_append, List.mem_append]
    rcases collectModifierTargets_ctor_covered m (m.ent fid).modifiers [] mid bc hmem hctor
      with hl | hr
    · simp at hl
    · exact Or.inl (Or.inl hr)
  · intro bc hmem
    rw [collectCalledTargets]
    simp only [List.filterMap_append, List.mem_append]
    rcases collectExplicitCtorTargets_covered m (m.ent fid).explicit_base_constructor_calls
      (collectModifierTargets m [] (m.ent fid).modifiers).2 bc hmem with hl | hr
    · obtain ⟨hm1, _, _⟩ := collectModifierTargets_keys m (m.ent fid).modifiers []
      rw [hm1, List.append_nil] at hl
      exact Or.inl (Or.inl (List.mem_reverse.mp hl))
    · exact Or.inl (Or.inr hr)
  · rw [collectCalledTargets]
    simp only [List.filterMap_append]
    rw [collectBodyTargets_no_baseCtorKeys, List.append_nil]
    obtain ⟨hm1, hm2, _⟩ := collectModifierTargets_keys m (m.ent fid).modifiers []
    obtain ⟨_, he2, he3⟩ := collectExplicitCtorTargets_keys m
      (m.ent fid).explicit_base_constructor_calls
      (collectModifierTargets m [] (m.ent fid).modifiers).2
    rw [List.nodup_append]
    refine ⟨hm2, he2, ?_⟩
    intro k hk1 hk2
    have := he3 k hk2
    rw [hm1, List.append_nil] at this
    exact this (List.mem_reverse.mpr hk1)
  · intro t ht
    obtain ⟨n, _, hcs, hk⟩ := collectBodyTargets_mem_shape m _ _ t ht
    exact ⟨by rw [hcs]; rfl, hk⟩
  · exact collectBodyTargets_pairwise m _ _ (sortNodes_sorted m _)

/-! ### C9 — private-helper writers resolve to their covering entry point -/

theorem foldl_noop {α β : Type} (f : β → α → β) :
    ∀ (l : List α) (st : β), (∀ st' a, a ∈ l → f st' a = st') →
      l.foldl f st = st := by
  intro l
  induction l with
  | nil => intro st _; rfl
  | cons a rest ih =>
    intro st h
    rw [List.foldl_cons, h st a (List.mem_cons_self a rest)]
    exact ih st (fun st' b hb => h st' b (List.mem_cons_of_mem a hb))

/-- A target whose key is already in `visited` contributes nothing and
leaves `visited` unchanged (for zero fuel this also holds outright). -/
theorem find_visited (m : Model) (cid : Nat) (fuel targetF : Nat)
    (v : List String) (h : entKey m targetF ∈ v) :
    findCallingEntryPoints m cid fuel targetF v = (∅, v) := by
  cases fuel with
  | zero => rfl
  | succ fuel =>
    simp only [findCallingEntryPoints]
    rw [if_pos h]

theorem findFoldStep_noop (m : Model)
    (rec : Nat → List String → Finset Nat × List String) (targetF : Nat)
    (st : Finset Nat × List String) (g : Nat)
    (h1 : targetF ∉ (m.ent g).internal_calls)
    (h2 : ∀ ce ∈ (m.ent g).calls_as_expressions, (m.ent ce).called ≠ some targetF) :
    findFoldStep m rec targetF st g = st := by
  unfold findFoldStep
  rw [if_neg h1]
  exact foldl_noop _ _ st (fun st' ce hce => by simp [h2 ce hce])

theorem find_fold_noop (m : Model)
    (rec : Nat → List String → Finset Nat × List String) (targetF : Nat)
    (l : List Nat) (st : Finset Nat × List String)
    (h : ∀ g ∈ l, targetF ∉ (m.ent g).internal_calls ∧
      ∀ ce ∈ (m.ent g).calls_as_expressions, (m.ent ce).called ≠ some targetF) :
    l.foldl (findFoldStep m rec targetF) st = st :=
  foldl_noop _ l st (fun st' g hg =>
    findFoldStep_noop m rec targetF st' g (h g hg).1 (h g hg).2)

/-- Finding the callers of an entry point nobody calls yields exactly that
entry point and marks it visited. -/
theorem find_ep_singleton (m : Model) (cid : Nat) (ep : Nat) (fuel : Nat)
    (hep : isEntryPoint (m.ent ep) = true)
    (hnocall : ∀ g ∈ (m.ent cid).functions, ep ∉ (m.ent g).internal_calls ∧
      ∀ ce ∈ (m.ent g).calls_as_expressions, (m.ent ce).called ≠ some ep)
    (v : List String) (hv : entKey m ep ∉ v) :
    findCallingEntryPoints m cid (fuel + 1) ep v = ({ep}, entKey m ep :: v) := by
  simp only [findCallingEntryPoints]
  rw [if_neg hv, find_fold_noop m _ ep _ _ hnocall, hep]
  simp

/-- The expression sub-loop is inert once the caller's key is visited. -/
theorem expr_fold_visited (m : Model) (cid : Nat) (fuel g targetF : Nat) :
    ∀ (exprs : List Nat) (st : Finset Nat × List String), entKey m g ∈ st.2 →
      exprs.foldl (fun st2 ce =>
        if (m.ent ce).called = some targetF then
          (st2.1 ∪ (findCallingEntryPoints m cid fuel g st2.2).1,
            (findCallingEntryPoints m cid fuel g st2.2).2)
        else st2) st = st := by
  intro exprs
  induction exprs with
  | nil => intro st _; rfl
  | cons ce rest ih =>
    intro st hmem
    simp only [List.foldl_cons]
    by_cases hc : (m.ent ce).called = some targetF
    · rw [if_pos hc, find_visited m cid fuel g st.2 hmem]
      have hst : (st.1 ∪ (∅ : Finset Nat), st.2) = st := by
        rw [Finset.union_empty]
      rw [hst]
      exact ih st hmem
    · rw [if_neg hc]
      exact ih st hmem

/-- Processing the unique caller `ep` of `helper`: with `ep` unvisited the
state gains exactly `ep` (and its key); with `ep` visited the state is
unchanged. -/
theorem findFoldStep_ep (m : Model) (cid : Nat) (fuel helper ep : Nat)
    (hep : isEntryPoint (m.ent ep) = true)
    (hcall : helper ∈ (m.ent ep).internal_calls)
    (hnocall : ∀ g ∈ (m.ent cid).functions, ep ∉ (m.ent g).internal_calls ∧
      ∀ ce ∈ (m.ent g).calls_as_expressions, (m.ent ce).called ≠ some ep)
    (st : Finset Nat × List String) :
    (entKey m ep ∉ st.2 →
      findFoldStep m (findCallingEntryPoints m cid (fuel + 1)) helper st ep =
        (st.1 ∪ {ep}, entKey m ep :: st.2)) ∧
    (entKey m ep ∈ st.2 →
      findFoldStep m (findCallingEntryPoints m cid (fuel + 1)) helper st ep = st) := by
  constructor
  · intro hv
    unfold findFoldStep
    rw [if_pos hcall, find_ep_singleton m cid ep fuel hep hnocall st.2 hv]
    exact expr_fold_visited m cid (fuel + 1) ep helper _ _
      (List.mem_cons_self _ _)
  · intro hv
    unfold findFoldStep
    rw [if_pos hcall, find_visited m cid (fuel + 1) ep st.2 hv]
    have hst : (st.1 ∪ (∅ : Finset Nat), st.2) = st := by
      rw [Finset.union_empty]
    rw [hst]
    exact expr_fold_visited m cid (fuel + 1) ep helper _ st hv

/-- The caller scan of `find(helper)`: starting from a state that holds
either nothing (with `ep` unvisited) or exactly `{ep}` (visited), the scan
ends in `{ep}` as soon as `ep` has been processed, and never collects
anything else. -/
theorem find_helper_fold (m : Model) (cid : Nat) (helper ep : Nat) (fuel : Nat)
    (hep : isEntryPoint (m.ent ep) = true)
    (hcall : helper ∈ (m.ent ep).internal_calls)
    (hnocall_ep : ∀ g ∈ (m.ent cid).functions, ep ∉ (m.ent g).internal_calls ∧
      ∀ ce ∈ (m.ent g).calls_as_expressions, (m.ent ce).called ≠ some ep) :
    ∀ (l : List Nat),
      (∀ g ∈ l, g ≠ ep → helper ∉ (m.ent g).internal_calls ∧
        ∀ ce ∈ (m.ent g).calls_as_expressions, (m.ent ce).called ≠ some helper) →
      ∀ (st : Finset Nat × List String),
        (st.1 = ∅ ∧ entKey m ep ∉ st.2) ∨ (st.1 = {ep} ∧ entKey m ep ∈ st.2) →
        (ep ∈ l →
          (l.foldl (findFoldStep m (findCallingEntryPoints m cid (fuel + 1)) helper) st).1
            = {ep}) ∧
        (st.1 = {ep} →
          (l.foldl (findFoldStep m (findCallingEntryPoints m cid (fuel + 1)) helper) st).1
            = {ep}) := by
  intro l
  induction l with
  | nil =>
    intro _ st hinv
    refine ⟨fun h => absurd h (List.not_mem_nil ep), fun h => h⟩
  | cons g rest ih =>
    intro honly st hinv
    by_cases hg : g = ep
    · subst hg
      rcases hinv with ⟨h1, h2⟩ | ⟨h1, h2⟩
      · have hstep := (findFoldStep_ep m cid fuel helper g hep hcall hnocall_ep st).1 h2
        rw [List.foldl_cons, hstep]
        have hinv' : ((st.1 ∪ {g}, entKey m g :: st.2).1 = ∅ ∧
            entKey m g ∉ (st.1 ∪ {g}, entKey m g :: st.2).2) ∨
            ((st.1 ∪ {g}, entKey m g :: st.2).1 = {g} ∧
            entKey m g ∈ (st.1 ∪ {g}, entKey m g :: st.2).2) := by
          right
          constructor
          · rw [h1, Finset.empty_union]
          · exact List.mem_cons_self _ _
        obtain ⟨_, ihb⟩ := ih (fun g' hg' => honly g' (List.mem_cons_of_mem g hg'))
          _ hinv'
        refine ⟨fun _ => ?_, fun _ => ?_⟩ <;>
          exact ihb (by rw [h1, Finset.empty_union])
      · have hstep := (findFoldStep_ep m cid fuel helper g hep hcall hnocall_ep st).2 h2
        rw [List.foldl_cons, hstep]
        obtain ⟨_, ihb⟩ := ih (fun g' hg' => honly g' (List.mem_cons_of_mem g hg'))
          st (Or.inr ⟨h1, h2⟩)
        exact ⟨fun _ => ihb h1, fun _ => ihb h1⟩
    · have hno := honly g (List.mem_cons_self g rest) hg
      rw [List.foldl_cons,
        findFoldStep_noop m _ helper st g hno.1 hno.2]
      obtain ⟨iha, ihb⟩ := ih (fun g' hg' => honly g' (List.mem_cons_of_mem g hg'))
        st hinv
      refine ⟨fun hmem => ?_, ihb⟩
      rcases List.mem_cons.mp hmem with heq | hmem
      · exact absurd heq.symm hg
      · exact iha hmem

/-- `_find_calling_entry_points(helper, contract)` returns exactly the one
public entry point that calls the private helper. -/
theorem find_top_helper (m : Model) (cid : Nat) (helper ep : Nat)
    (hmem_e : ep ∈ (m.ent cid).functions)
    (hnep : isEntryPoint (m.ent helper) = false)
    (hep : isEntryPoint (m.ent ep) = true)
    (hkeys : entKey m helper ≠ entKey m ep)
    (hcall : helper ∈ (m.ent ep).internal_calls)
    (honly : ∀ g ∈ (m.ent cid).functions, g ≠ ep →
      helper ∉ (m.ent g).internal_calls ∧
      ∀ ce ∈ (m.ent g).calls_as_expressions, (m.ent ce).called ≠ some helper)
    (hnocall_ep : ∀ g ∈ (m.ent cid).functions, ep ∉ (m.ent g).internal_calls ∧
      ∀ ce ∈ (m.ent g).calls_as_expressions, (m.ent ce).called ≠ some ep) :
    findCallingEntryPointsTop m cid helper = {ep} := by
  unfold findCallingEntryPointsTop
  have hfuel : (m.ent cid).functions.length + 2 = ((m.ent cid).functions.length + 1) + 1 :=
    rfl
  rw [hfuel]
  simp only [findCallingEntryPoints]
  rw [if_neg (by simp)]
  rw [hnep]
  obtain ⟨iha, _⟩ := find_helper_fold m cid helper ep (m.ent cid).functions.length
    hep hcall hnocall_ep (m.ent cid).functions honly
    ((if False then {helper} else ∅ : Finset Nat), [entKey m helper])
    (Or.inl ⟨by simp, by simp [Ne.symm hkeys]⟩)
  simpa using iha hmem_e

/-- One step of the writer loop never collects anything but `ep`, and the
helper's step always collects `ep`. -/
theorem writing_fold (m : Model) (cid : Nat) (helper ep : Nat) (varC : String)
    (hfind : findCallingEntryPointsTop m cid helper = {ep})
    (hfc_h : (m.ent helper).is_function_contract = true)
    (hnep : isEntryPoint (m.ent helper) = false)
    (hep : isEntryPoint (m.ent ep) = true)
    (hwh : some varC ∈ writtenCanonicals m helper) :
    ∀ (l : List Nat),
      (∀ g ∈ l, g ≠ helper → g ≠ ep → some varC ∉ writtenCanonicals m g) →
      ∀ (acc : Finset Nat),
        (helper ∈ l → l.foldl (writingStep m cid varC) acc = acc ∪ {ep}) ∧
        (l.foldl (writingStep m cid varC) acc = acc ∨
          l.foldl (writingStep m cid varC) acc = acc ∪ {ep}) := by
  intro l
  induction l with
  | nil =>
    intro _ acc
    exact ⟨fun h => absurd h (List.not_mem_nil helper), Or.inl rfl⟩
  | cons g rest ih =>
    intro hwo acc
    have hrest := fun g' hg' => hwo g' (List.mem_cons_of_mem g hg')
    have hstep : writingStep m cid varC acc g = acc ∨
        writingStep m cid varC acc g = acc ∪ {ep} := by
      unfold writingStep
      by_cases hfc : (m.ent g).is_function_contract = true
      · by_cases hg_h : g = helper
        · subst hg_h
          rw [hfc_h]
          simp only [Bool.not_true, Bool.false_eq_true, if_false]
          rw [if_pos hwh, hnep]
          simp only [Bool.false_eq_true, if_false]
          rw [hfind]
          exact Or.inr rfl
        · by_cases hg_e : g = ep
          · subst hg_e
            rw [hfc]
            simp only [Bool.not_true, Bool.false_eq_true, if_false]
            by_cases hw : some varC ∈ writtenCanonicals m g
            · rw [if_pos hw, hep]
              exact Or.inr (by simp)
            · rw [if_neg hw]
              exact Or.inl rfl
          · rw [hfc]
            simp only [Bool.not_true, Bool.false_eq_true, if_false]
            rw [if_neg (hwo g (List.mem_cons_self g rest) hg_h hg_e)]
            exact Or.inl rfl
      · rw [if_pos (by simp [Bool.not_eq_true] at hfc ⊢; exact hfc)]
        exact Or.inl rfl
    have hstep_h : g = helper → writingStep m cid varC acc g = acc ∪ {ep} := by
      intro hg_h
      subst hg_h
      unfold writingStep
      rw [hfc_h]
      simp only [Bool.not_true, Bool.false_eq_true, if_false]
      rw [if_pos hwh, hnep]
      simp only [Bool.false_eq_true, if_false]
      rw [hfind]
    have hunion : (acc ∪ {ep}) ∪ {ep} = acc ∪ {ep} := by
      rw [Finset.union_assoc, Finset.union_self]
    constructor
    · intro hmem
      rw [List.foldl_cons]
      rcases List.mem_cons.mp hmem with heq | hmem
      · rw [hstep_h heq.symm]
        rcases (ih hrest (acc ∪ {ep})).2 with h | h
        · exact h
        · rw [h, hunion]
      · rcases hstep with h | h
        · rw [h]
          exact (ih hrest acc).1 hmem
        · rw [h]
          rw [(ih hrest (acc ∪ {ep})).1 hmem, hunion]
    · rw [List.foldl_cons]
      rcases hstep with h | h
      · rw [h]
        exact (ih hrest acc).2
      · rw [h]
        rcases (ih hrest (acc ∪ {ep})).2 with h' | h'
        · exact Or.inr h'
        · rw [h', hunion]
          exact Or.inr rfl

/-- C9: a mutable state variable written only inside a private
(non-entry-point) helper that is called exclusively by exactly one public
entry point of the contract — and nothing calls that entry point in turn —
resolves to a writer set holding exactly that entry point, even though the
helper itself is never classified as an entry point. -/
theorem private_helper_writer_exactly_entrypoint (m : Model) (cid : Nat)
    (helper ep : Nat) (varC : String)
    (hmem_h : helper ∈ (m.ent cid).functions)
    (hmem_e : ep ∈ (m.ent cid).functions)
    (hfc_h : (m.ent helper).is_function_contract = true)
    (hnep : isEntryPoint (m.ent helper) = false)
    (hep : isEntryPoint (m.ent ep) = true)
    (hkeys : entKey m helper ≠ entKey m ep)
    (hwh : some varC ∈ writtenCanonicals m helper)
    (hwo : ∀ g ∈ (m.ent cid).functions, g ≠ helper → g ≠ ep →
      some varC ∉ writtenCanonicals m g)
    (hcall : helper ∈ (m.ent ep).internal_calls)
    (honly : ∀ g ∈ (m.ent cid).functions, g ≠ ep →
      helper ∉ (m.ent g).internal_calls ∧
      ∀ ce ∈ (m.ent g).calls_as_expressions, (m.ent ce).called ≠ some helper)
    (hnocall_ep : ∀ g ∈ (m.ent cid).functions, ep ∉ (m.ent g).internal_calls ∧
      ∀ ce ∈ (m.ent g).calls_as_expressions, (m.ent ce).called ≠ some ep) :
    writingEntryPoints m cid varC = {ep} := by
  have hfind := find_top_helper m cid helper ep hmem_e hnep hep hkeys hcall
    honly hnocall_ep
  unfold writingEntryPoints
  rw [(writing_fold m cid helper ep varC hfind hfc_h hnep hep hwh
    (m.ent cid).functions hwo ∅).1 hmem_h]
  rw [Finset.empty_union]

/-- Witness for C9 on the concrete model `mC9`. -/
theorem private_helper_writer_exactly_entrypoint_witness :
    writingEntryPoints mC9 0 "C.x" = {2} :=
  private_helper_writer_exactly_entrypoint mC9 0 1 2 "C.x"
    (by decide) (by decide) (by decide) (by decide) (by decide) (by decide)
    (by decide) (by decide) (by decide) (by decide) (by decide)

/-! ### C1 amended — the resolver returns the maximal `(score, name)` key -/

theorem charListLtB_irrefl : ∀ l : List Char, charListLtB l l = false := by
  intro l
  induction l with
  | nil => rfl
  | cons a as ih =>
    rw [charListLtB]
    rw [if_neg (by omega), if_neg (by omega)]
    exact ih

theorem charListLtB_trans : ∀ (a b c : List Char),
    charListLtB a b = true → charListLtB b c = true → charListLtB a c = true := by
  intro a
  induction a with
  | nil =>
    intro b c hab hbc
    cases c with
    | nil =>
      cases b with
      | nil => exact hab
      | cons z bs => simp [charListLtB] at hbc
    | cons y cs => rfl
  | cons x as ih =>
    intro b c hab hbc
    cases b with
    | nil => simp [charListLtB] at hab
    | cons z bs =>
      cases c with
      | nil => simp [charListLtB] at hbc
      | cons y cs =>
        rw [charListLtB] at hab hbc ⊢
        by_cases h1 : x.toNat < z.toNat
        · by_cases h2 : z.toNat < y.toNat
          · rw [if_pos (by omega)]
          · rw [if_neg h2] at hbc
            by_cases h3 : y.toNat < z.toNat
            · rw [if_pos h3] at hbc
              simp at hbc
            · rw [if_pos (by omega)]
        · rw [if_neg h1] at hab
          by_cases h4 : z.toNat < x.toNat
          · rw [if_pos h4] at hab
            simp at hab
          · rw [if_neg h4] at hab
            by_cases h2 : z.toNat < y.toNat
            · rw [if_pos (by omega)]
            · rw [if_neg h2] at hbc
              by_cases h3 : y.toNat < z.toNat
              · rw [if_pos h3] at hbc
                simp at hbc
              · rw [if_neg h3] at hbc
                rw [if_neg (by omega), if_neg (by omega)]
                exact ih bs cs hab hbc

theorem charListLtB_negTrans : ∀ (a b c : List Char),
    charListLtB a b = false → charListLtB b c = false → charListLtB a c = false := by
  intro a
  induction a with
  | nil =>
    intro b c hab hbc
    cases c with
    | nil => rfl
    | cons y cs =>
      cases b with
      | nil => simp [charListLtB] at hbc
      | cons z bs => simp [charListLtB] at hab
  | cons x as ih =>
    intro b c hab hbc
    cases c with
    | nil => rfl
    | cons y cs =>
      cases b with
      | nil => simp [charListLtB] at hbc
      | cons z bs =>
        rw [charListLtB] at hab hbc ⊢
        by_cases h1 : x.toNat < z.toNat
        · rw [if_pos h1] at hab
          simp at hab
        · rw [if_neg h1] at hab
          by_cases h2 : z.toNat < y.toNat
          · rw [if_pos h2] at hbc
            simp at hbc
          · rw [if_neg h2] at hbc
            by_cases h3 : x.toNat < y.toNat
            · exfalso
              omega
            · rw [if_neg h3]
              by_cases h4 : y.toNat < x.toNat
              · rw [if_pos h4]
              · rw [if_neg h4]
                by_cases h5 : z.toNat < x.toNat
                · exfalso
                  omega
                · rw [if_neg h5] at hab
                  by_cases h6 : y.toNat < z.toNat
                  · exfalso
                    omega
                  · rw [if_neg h6] at hbc
                    exact ih bs cs hab hbc

theorem strLeB_refl (s : String) : strLeB s s = true := by
  unfold strLeB strLtB
  rw [charListLtB_irrefl]
  rfl

theorem strLeB_trans (a b c : String) (h1 : strLeB a b = true)
    (h2 : strLeB b c = true) : strLeB a c = true := by
  unfold strLeB strLtB at h1 h2 ⊢
  rw [Bool.not_eq_true'] at h1 h2 ⊢
  exact charListLtB_negTrans c.data b.data a.data h2 h1

theorem strLeB_total (a b : String) : strLeB a b = true ∨ strLeB b a = true := by
  unfold strLeB strLtB
  by_cases h : charListLtB b.data a.data = true
  · right
    rw [Bool.not_eq_true']
    by_cases h' : charListLtB a.data b.data = true
    · exfalso
      have hloop := charListLtB_trans _ _ _ h h'
      rw [charListLtB_irrefl] at hloop
      simp at hloop
    · exact Bool.eq_false_iff.mpr h'
  · left
    rw [Bool.not_eq_true']
    exact Bool.eq_false_iff.mpr h

theorem scoreKeyLe_refl (k : Nat × String) : scoreKeyLe k k = true := by
  unfold scoreKeyLe
  rw [strLeB_refl]
  simp

theorem scoreKeyLe_trans (a b c : Nat × String)
    (h1 : scoreKeyLe a b = true) (h2 : scoreKeyLe b c = true) :
    scoreKeyLe a c = true := by
  unfold scoreKeyLe at h1 h2 ⊢
  simp only [Bool.or_eq_true, Bool.and_eq_true, decide_eq_true_eq] at h1 h2 ⊢
  rcases h1 with h1 | ⟨h1e, h1s⟩
  · rcases h2 with h2 | ⟨h2e, h2s⟩
    · exact Or.inl (by omega)
    · exact Or.inl (by omega)
  · rcases h2 with h2 | ⟨h2e, h2s⟩
    · exact Or.inl (by omega)
    · exact Or.inr ⟨by omega, strLeB_trans _ _ _ h1s h2s⟩

theorem scoreKeyLe_total (a b : Nat × String) :
    scoreKeyLe a b = true ∨ scoreKeyLe b a = true := by
  unfold scoreKeyLe
  simp only [Bool.or_eq_true, Bool.and_eq_true, decide_eq_true_eq]
  by_cases h : a.1 < b.1
  · exact Or.inl (Or.inl h)
  · by_cases h' : b.1 < a.1
    · exact Or.inr (Or.inl h')
    · have he : a.1 = b.1 := by omega
      rcases strLeB_total a.2 b.2 with hs | hs
      · exact Or.inl (Or.inr ⟨he, hs⟩)
      · exact Or.inr (Or.inr ⟨he.symm, hs⟩)

/-- C1 amended: off the fast path, with candidates available, the resolver
returns a candidate whose `(score, canonical name)` key is maximal in the
Python tuple order — so it has maximal score, and among candidates of equal
maximal score the lexicographically largest canonical name (the
`reverse=True` sort reverses the name tie-break as well). -/
theorem resolve_returns_max_score_key (m : Model) (fid : Nat) (excl : Bool)
    (hfast : resolveFastPath m fid = false)
    (hraw : ¬(implCandidatesRaw m fid = []))
    (hmany : 1 < (implCandidates m fid excl).length) :
    resolveToImplementation m fid excl ∈ implCandidates m fid excl ∧
    ∀ c ∈ implCandidates m fid excl,
      scoreKeyLe (implScoreKey m c)
        (implScoreKey m (resolveToImplementation m fid excl)) = true := by
  have hres : resolveToImplementation m fid excl =
      (List.insertionSort (fun a b => implSortLe m a b = true)
        (implCandidates m fid excl)).headD fid := by
    rw [resolveToImplementation, hfast]
    simp only [Bool.false_eq_true, if_false]
    rw [if_neg hraw]
  haveI instTot : IsTotal Nat (fun a b => implSortLe m a b = true) := ⟨fun a b => by
    simp only [implSortLe]
    rcases scoreKeyLe_total (implScoreKey m b) (implScoreKey m a) with h | h
    · exact Or.inl h
    · exact Or.inr h⟩
  haveI instTrans : IsTrans Nat (fun a b => implSortLe m a b = true) :=
    ⟨fun a b c hab hbc => by
      simp only [implSortLe] at hab hbc ⊢
      exact scoreKeyLe_trans _ _ _ hbc hab⟩
  have hperm := List.perm_insertionSort (fun a b => implSortLe m a b = true)
    (implCandidates m fid excl)
  have hsorted := List.sorted_insertionSort (fun a b => implSortLe m a b = true)
    (implCandidates m fid excl)
  rcases hS : List.insertionSort (fun a b => implSortLe m a b = true)
      (implCandidates m fid excl) with _ | ⟨x, rest⟩
  · rw [hS] at hperm
    have hlen := hperm.length_eq
    simp at hlen
    omega
  · rw [hS] at hperm hsorted
    rw [hres, hS]
    simp only [List.headD_cons]
    constructor
    · exact hperm.mem_iff.mp (List.mem_cons_self x rest)
    · intro c hc
      have hc' : c ∈ x :: rest := hperm.mem_iff.mpr hc
      rcases List.mem_cons.mp hc' with rfl | hc'
      · exact scoreKeyLe_refl _
      · exact (List.pairwise_cons.mp hsorted).1 c hc'

/-- Witness for the amended C1 at the tie-broken model `mC1`. -/
theorem resolve_returns_max_score_key_witness :
    resolveToImplementation mC1 0 true ∈ implCandidates mC1 0 true ∧
    scoreKeyLe (implScoreKey mC1 1)
      (implScoreKey mC1 (resolveToImplementation mC1 0 true)) = true :=
  ⟨(resolve_returns_max_score_key mC1 0 true (by decide) (by decide) (by decide)).1,
    (resolve_returns_max_score_key mC1 0 true (by decide) (by decide) (by decide)).2
      1 (by decide)⟩

end Trackidity
